import Mathlib

/-!
# Verification of `resume_md_to_docx.py` (resume-md-to-ats-converter)

Shallow embedding of the markdown-to-docx mapping engine of
`src/src/resume_md_to_docx.py`, together with proofs settling the frozen
claims about it.

Python strings are embedded as `List Char`; BeautifulSoup tag nodes,
docx paragraphs and runs are embedded as explicit inductive data.
Every definition is translated from the named source function; comments
cite the source symbol and line range.
-/

namespace ResumeMd

/-! ## Pythonic string primitives (ASCII fragment used by the source) -/

/-- Characters Python treats as whitespace for `str.strip` / `\s` (ASCII part;
the source only manipulates ASCII whitespace). -/
def pyIsSpace (c : Char) : Bool :=
  c = ' ' ∨ c = '\t' ∨ c = '\n' ∨ c = '\r' ∨ c = '\x0b' ∨ c = '\x0c'

/-- Python `str.lower` (ASCII case mapping; all texts the engine matches on
are ASCII). -/
def pyLower (xs : List Char) : List Char := xs.map Char.toLower

/-- Python `str.rstrip()`. -/
def pyRstrip (xs : List Char) : List Char :=
  (xs.reverse.dropWhile pyIsSpace).reverse

/-- Python `str.lstrip()`. -/
def pyLstrip (xs : List Char) : List Char := xs.dropWhile pyIsSpace

/-- Python `str.strip()`. -/
def pyStrip (xs : List Char) : List Char := pyRstrip (pyLstrip xs)

/-- Convenience: coerce a string literal to the `List Char` embedding. -/
def chars (st : String) : List Char := st.toList

/-- Boolean test that `pat` is an initial segment of `xs`
(Python `str.startswith`). -/
def startsWithCh : List Char → List Char → Bool
  | [], _ => true
  | _ :: _, [] => false
  | p :: ps, x :: xs => p = x && startsWithCh ps xs

theorem startsWithCh_eq_append {pat xs : List Char}
    (h : startsWithCh pat xs = true) : xs = pat ++ xs.drop pat.length := by
  induction pat generalizing xs with
  | nil => simp
  | cons p ps ih =>
    cases xs with
    | nil => simp [startsWithCh] at h
    | cons x rest =>
      simp only [startsWithCh, Bool.and_eq_true, decide_eq_true_eq] at h
      obtain ⟨hpx, hrest⟩ := h
      subst hpx
      simpa using ih hrest

theorem startsWithCh_of_append (pat rest : List Char) :
    startsWithCh pat (pat ++ rest) = true := by
  induction pat with
  | nil => simp [startsWithCh]
  | cons p ps ih => simp [startsWithCh, ih]

/-- First occurrence of the pattern `pat` inside `xs`: returns
`some (before, after)` with `xs = before ++ pat ++ after` and `before`
shortest, `none` when `pat` does not occur.  This is the semantics of
Python's `str.find` and of the split points of `str.split`. -/
def splitFirst (pat : List Char) : List Char → Option (List Char × List Char)
  | [] => if startsWithCh pat [] then some ([], []) else none
  | c :: rest =>
    if startsWithCh pat (c :: rest) then some ([], (c :: rest).drop pat.length)
    else (splitFirst pat rest).map (fun p => (c :: p.1, p.2))

/-- Soundness of `splitFirst`: the result is a genuine decomposition. -/
theorem splitFirst_eq {pat xs b a : List Char}
    (h : splitFirst pat xs = some (b, a)) : xs = b ++ pat ++ a := by
  induction xs generalizing b a with
  | nil =>
    simp only [splitFirst] at h
    split at h
    · next hpre =>
      simp only [Option.some.injEq, Prod.mk.injEq] at h
      obtain ⟨hb, ha⟩ := h
      subst hb; subst ha
      have := startsWithCh_eq_append hpre
      simpa using this.symm
    · exact absurd h (by simp)
  | cons c rest ih =>
    simp only [splitFirst] at h
    split at h
    · next hpre =>
      simp only [Option.some.injEq, Prod.mk.injEq] at h
      obtain ⟨hb, ha⟩ := h
      subst hb; subst ha
      simpa using startsWithCh_eq_append hpre
    · next hpre =>
      cases hrec : splitFirst pat rest with
      | none => rw [hrec] at h; simp at h
      | some p =>
        obtain ⟨b', a'⟩ := p
        rw [hrec] at h
        have h2 : (c :: b', a') = (b, a) := Option.some.inj h
        cases h2
        have := ih hrec
        simpa using this

/-- Leftmost-ness of `splitFirst`: any other decomposition has the pattern
at least as far right. -/
theorem splitFirst_leftmost {pat xs b a : List Char}
    (h : splitFirst pat xs = some (b, a)) :
    ∀ b' a', xs = b' ++ pat ++ a' → b.length ≤ b'.length := by
  induction xs generalizing b a with
  | nil =>
    intro b' a' hx
    simp only [splitFirst] at h
    split at h
    · simp only [Option.some.injEq, Prod.mk.injEq] at h
      obtain ⟨hb, _⟩ := h
      subst hb; simp
    · exact absurd h (by simp)
  | cons c rest ih =>
    intro b' a' hx
    simp only [splitFirst] at h
    split at h
    · simp only [Option.some.injEq, Prod.mk.injEq] at h
      obtain ⟨hb, _⟩ := h
      subst hb; simp
    · next hpre =>
      cases b' with
      | nil =>
        exfalso
        simp only [List.nil_append] at hx
        rw [hx] at hpre
        rw [startsWithCh_of_append] at hpre
        exact absurd hpre (by simp)
      | cons cb b'' =>
        cases hrec : splitFirst pat rest with
        | none => rw [hrec] at h; simp at h
        | some p =>
          obtain ⟨bb, aa⟩ := p
          rw [hrec] at h
          have h2 : (c :: bb, aa) = (b, a) := Option.some.inj h
          cases h2
          have hx' : rest = b'' ++ pat ++ a' := by
            simpa using congrArg List.tail hx
          have := ih hrec b'' a' hx'
          simpa using Nat.succ_le_succ this

/-- Completeness: if `splitFirst` fails there is no occurrence at all. -/
theorem splitFirst_none {pat xs : List Char}
    (h : splitFirst pat xs = none) :
    ∀ b a, xs ≠ b ++ pat ++ a := by
  induction xs with
  | nil =>
    intro b a hx
    simp only [splitFirst] at h
    split at h
    · simp at h
    · next hpre =>
      have hb : b = [] := by
        cases b with
        | nil => rfl
        | cons _ _ => simp at hx
      subst hb
      simp only [List.nil_append] at hx
      have hp : pat = [] := by
        cases pat with
        | nil => rfl
        | cons _ _ => simp at hx
      rw [hp] at hpre
      simp [startsWithCh] at hpre
  | cons c rest ih =>
    intro b a hx
    simp only [splitFirst] at h
    split at h
    · simp at h
    · next hpre =>
      cases b with
      | nil =>
        simp only [List.nil_append] at hx
        rw [hx, startsWithCh_of_append] at hpre
        exact absurd hpre (by simp)
      | cons cb b'' =>
        cases hrec : splitFirst pat rest with
        | none =>
          have hx' : rest = b'' ++ pat ++ a := by
            simpa using congrArg List.tail hx
          exact ih hrec b'' a hx'
        | some p => rw [hrec] at h; simp at h

/-- Python `pat in s` (substring containment). -/
def containsSub (pat xs : List Char) : Bool := (splitFirst pat xs).isSome

/-- Fuelled worker for `pySplit`: each separator occurrence consumes at least
one character, so `xs.length` fuel always suffices. -/
def pySplitF (sep : List Char) : Nat → List Char → List (List Char)
  | 0, xs => [xs]
  | fuel + 1, xs =>
    match splitFirst sep xs with
    | none => [xs]
    | some (b, a) => b :: pySplitF sep fuel a

/-- Python `s.split(sep)` for a non-empty separator `sep`
(for `sep = []` Python raises `ValueError`; here the whole string is
returned, a branch the source never reaches). -/
def pySplit (sep : List Char) (xs : List Char) : List (List Char) :=
  if sep = [] then [xs] else pySplitF sep xs.length xs

theorem splitFirst_nil_of_ne {sep : List Char} (hsep : sep ≠ []) :
    splitFirst sep [] = none := by
  cases sep with
  | nil => exact absurd rfl hsep
  | cons c cs => simp [splitFirst, startsWithCh]

/-- With enough fuel, `pySplitF` is fuel-independent. -/
theorem pySplitF_fuel {sep : List Char} (hsep : sep ≠ []) :
    ∀ f1 f2 xs, xs.length ≤ f1 → xs.length ≤ f2 →
      pySplitF sep f1 xs = pySplitF sep f2 xs := by
  intro f1
  induction f1 using Nat.strong_induction_on with
  | _ f1 ih =>
    intro f2 xs h1 h2
    cases f1 with
    | zero =>
      have hxs : xs = [] := List.length_eq_zero.mp (Nat.le_zero.mp h1)
      subst hxs
      cases f2 with
      | zero => rfl
      | succ f2' => simp [pySplitF, splitFirst_nil_of_ne hsep]
    | succ f1' =>
      cases f2 with
      | zero =>
        have hxs : xs = [] := List.length_eq_zero.mp (Nat.le_zero.mp h2)
        subst hxs
        simp [pySplitF, splitFirst_nil_of_ne hsep]
      | succ f2' =>
        simp only [pySplitF]
        cases hs : splitFirst sep xs with
        | none => rfl
        | some p =>
          obtain ⟨b, a⟩ := p
          have hx := splitFirst_eq hs
          have hlen : xs.length = b.length + sep.length + a.length := by
            rw [hx]; simp [Nat.add_assoc]
          have hsep1 : 1 ≤ sep.length := by
            cases sep with
            | nil => exact absurd rfl hsep
            | cons _ _ => simp
          have ha1 : a.length ≤ f1' := by omega
          have ha2 : a.length ≤ f2' := by omega
          show b :: pySplitF sep f1' a = b :: pySplitF sep f2' a
          rw [ih f1' (Nat.lt_succ_self f1') f2' a ha1 ha2]

/-- Unfolding equation: no separator occurrence. -/
theorem pySplit_none {sep xs : List Char} (hsep : sep ≠ [])
    (h : splitFirst sep xs = none) : pySplit sep xs = [xs] := by
  unfold pySplit
  rw [if_neg hsep]
  cases hl : xs.length with
  | zero => rfl
  | succ n => simp [pySplitF, h]

/-- Unfolding equation: split at the first separator occurrence. -/
theorem pySplit_some {sep xs b a : List Char} (hsep : sep ≠ [])
    (h : splitFirst sep xs = some (b, a)) :
    pySplit sep xs = b :: pySplit sep a := by
  have hx := splitFirst_eq h
  have hsep1 : 1 ≤ sep.length := by
    cases sep with
    | nil => exact absurd rfl hsep
    | cons _ _ => simp
  have hlen : xs.length = b.length + sep.length + a.length := by
    rw [hx]; simp [Nat.add_assoc]
  unfold pySplit
  rw [if_neg hsep, if_neg hsep]
  cases hl : xs.length with
  | zero => omega
  | succ n =>
    simp only [pySplitF, h]
    exact congrArg (b :: ·) (pySplitF_fuel hsep n a.length a (by omega) (le_refl _))

theorem dropWhile_append_all {p : Char → Bool} {w l : List Char}
    (hw : ∀ c ∈ w, p c = true) :
    List.dropWhile p (w ++ l) = List.dropWhile p l := by
  induction w with
  | nil => simp
  | cons c cs ih =>
    have hc : p c = true := hw c (by simp)
    simp only [List.cons_append, List.dropWhile_cons, hc, if_true]
    exact ih (fun x hx => hw x (by simp [hx]))

theorem dropWhile_all_eq_nil {p : Char → Bool} {w : List Char}
    (hw : ∀ c ∈ w, p c = true) : List.dropWhile p w = [] := by
  simpa using @dropWhile_append_all p w [] hw

theorem pyRstrip_append_all {w l : List Char}
    (hw : ∀ c ∈ w, pyIsSpace c = true) : pyRstrip (l ++ w) = pyRstrip l := by
  unfold pyRstrip
  rw [List.reverse_append]
  rw [dropWhile_append_all (fun c hc => hw c (by simpa using hc))]

theorem pyLstrip_append_all {w l : List Char}
    (hw : ∀ c ∈ w, pyIsSpace c = true) : pyLstrip (w ++ l) = pyLstrip l :=
  dropWhile_append_all hw

/-- Stripping absorbs surrounding whitespace. -/
theorem pyStrip_pad {w1 w2 xs : List Char}
    (h1 : ∀ c ∈ w1, pyIsSpace c = true) (h2 : ∀ c ∈ w2, pyIsSpace c = true) :
    pyStrip (w1 ++ xs ++ w2) = pyStrip xs := by
  unfold pyStrip
  rw [List.append_assoc, pyLstrip_append_all h1]
  unfold pyLstrip
  by_cases hnil : List.dropWhile pyIsSpace xs = []
  · have hxall : ∀ c ∈ xs, pyIsSpace c = true := by
      intro c hc
      by_contra hcf
      have := List.dropWhile_eq_nil_iff.mp hnil c hc
      exact hcf this
    rw [dropWhile_append_all hxall, dropWhile_all_eq_nil h2, hnil]
  · rw [List.dropWhile_append, if_neg (by simpa [List.isEmpty_iff] using hnil)]
    exact pyRstrip_append_all h2

theorem head?_dropWhile_false {p : Char → Bool} {l : List Char} {c : Char}
    (h : (List.dropWhile p l).head? = some c) : p c = false := by
  induction l with
  | nil => simp at h
  | cons x xs ih =>
    by_cases hx : p x = true
    · rw [List.dropWhile_cons, if_pos hx] at h
      exact ih h
    · rw [List.dropWhile_cons, if_neg hx] at h
      simp only [List.head?_cons, Option.some.injEq] at h
      subst h
      simpa using hx

/-- `pyRstrip` never leaves trailing whitespace. -/
theorem pyRstrip_getLast?_not_space {xs : List Char} {c : Char}
    (h : (pyRstrip xs).getLast? = some c) : pyIsSpace c = false := by
  unfold pyRstrip at h
  rw [List.getLast?_reverse] at h
  exact head?_dropWhile_false h

theorem pyRstrip_idem (xs : List Char) : pyRstrip (pyRstrip xs) = pyRstrip xs := by
  unfold pyRstrip
  rw [List.reverse_reverse]
  congr 1
  cases hd : List.dropWhile pyIsSpace xs.reverse with
  | nil => simp
  | cons c cs =>
    have hc : pyIsSpace c = false :=
      @head?_dropWhile_false pyIsSpace xs.reverse c (by rw [hd]; rfl)
    rw [List.dropWhile_cons, if_neg (by simp [hc])]

/-! ## `_ensure_sentence_ending` (source lines 4082-4102) -/

/-- The sentence-ending punctuation list of `_ensure_sentence_ending` and of
the native-bullet normalization in `_add_bullet_list`. -/
def sentencePunct : List Char := ['.', '!', '?', ':', ';']

/-- Python `s and s[-1] in set` for a string `s`: true when `s` is nonempty
and its last character is in `set`. -/
def lastCharIn (xs : List Char) (set : List Char) : Bool :=
  match xs.getLast? with
  | some c => c ∈ set
  | none => false

/-- Source: `_ensure_sentence_ending` (lines 4082-4102).
`if not text: return text` / `text = text.rstrip()` /
`if text and text[-1] in [".","!","?",":",";"]: return text` /
`return text + "."` -/
def ensure_sentence_ending (text : List Char) : List Char :=
  if text = [] then text
  else if lastCharIn (pyRstrip text) sentencePunct then pyRstrip text
  else pyRstrip text ++ ['.']

theorem lastCharIn_true {xs set : List Char} (h : lastCharIn xs set = true) :
    ∃ c, xs.getLast? = some c ∧ c ∈ set := by
  unfold lastCharIn at h
  cases hl : xs.getLast? with
  | none => rw [hl] at h; simp at h
  | some c =>
    rw [hl] at h
    exact ⟨c, rfl, by simpa using h⟩

theorem lastCharIn_of {xs set : List Char} {c : Char}
    (hl : xs.getLast? = some c) (hc : c ∈ set) : lastCharIn xs set = true := by
  unfold lastCharIn
  rw [hl]
  simpa using hc

/-! ## `JobSubsection` and `find_by_tag_and_text` (source lines 47-146) -/

/-- One variant of the `JobSubsection` enum (source lines 47-96). -/
structure JobSubsection where
  markdown_heading_level : List Char
  markdown_text_lower : List Char
  docx_heading : List Char
  separator : List Char
  bold : Bool
  italic : Bool
deriving DecidableEq

def KEY_SKILLS : JobSubsection :=
  ⟨chars "h5", chars "key skills", chars "Key Skills", chars ":", true, false⟩

def SUMMARY : JobSubsection :=
  ⟨chars "h5", chars "summary", chars "Summary", chars ":", true, false⟩

def INTERNAL : JobSubsection :=
  ⟨chars "h5", chars "internal", chars "Internal", chars ":", true, false⟩

def PROJECT_CLIENT : JobSubsection :=
  ⟨chars "h5", chars "project/client", chars "Project/Client", chars ": ", true, true⟩

def RESPONSIBILITIES : JobSubsection :=
  ⟨chars "h6", chars "responsibilities overview", chars "Responsibilities", chars ":",
    true, false⟩

def ADDITIONAL_DETAILS : JobSubsection :=
  ⟨chars "h6", chars "additional details", chars "Additional Details", chars ":",
    true, false⟩

def HIGHLIGHTS : JobSubsection :=
  ⟨chars "h3", chars "highlights", chars "Highlights", chars "", true, false⟩

/-- Enum members in declaration order (the order `for subsection in cls`
iterates). -/
def jobSubsectionMembers : List JobSubsection :=
  [KEY_SKILLS, SUMMARY, INTERNAL, PROJECT_CLIENT, RESPONSIBILITIES,
    ADDITIONAL_DETAILS, HIGHLIGHTS]

/-- Python `s.split()[0]`: the first whitespace-delimited word
(the source only applies it to the non-empty `markdown_text_lower` fields). -/
def firstWord (xs : List Char) : List Char :=
  (pyLstrip xs).takeWhile (fun c => !pyIsSpace c)

/-- The exact-match test of the first loop in `find_by_tag_and_text`. -/
def exactSubsectionMatch (tag_name text_lower : List Char) (s : JobSubsection) : Bool :=
  decide (s.markdown_heading_level = tag_name ∧ text_lower = s.markdown_text_lower)

/-- Source: `JobSubsection.find_by_tag_and_text` (lines 107-146).
`text_lower = text.lower().strip()`; first an exact match over all members;
otherwise, for h5/h6 only, the first member of the same level whose first
keyword occurs in `text_lower` (Python `keyword in text_lower`). -/
def find_by_tag_and_text (tag_name text : List Char) : Option JobSubsection :=
  let text_lower := pyStrip (pyLower text)
  match jobSubsectionMembers.find? (exactSubsectionMatch tag_name text_lower) with
  | some s => some s
  | none =>
    if tag_name = chars "h5" ∨ tag_name = chars "h6" then
      (jobSubsectionMembers.filter
          (fun s => s.markdown_heading_level = tag_name)).find?
        (fun s => containsSub (firstWord s.markdown_text_lower) text_lower)
    else none

theorem toLower_of_space {c : Char} (h : pyIsSpace c = true) : c.toLower = c := by
  simp only [pyIsSpace, decide_eq_true_eq] at h
  rcases h with h | h | h | h | h | h <;> subst h <;> decide

theorem pyLower_space_pres {w : List Char} (h : ∀ c ∈ w, pyIsSpace c = true) :
    ∀ c ∈ pyLower w, pyIsSpace c = true := by
  intro c hc
  unfold pyLower at hc
  obtain ⟨c', hc', rfl⟩ := List.mem_map.mp hc
  rw [toLower_of_space (h c' hc')]
  exact h c' hc'

/-- Normalisation in `find_by_tag_and_text` is invariant under surrounding
whitespace. -/
theorem strip_lower_pad {w1 w2 text : List Char}
    (h1 : ∀ c ∈ w1, pyIsSpace c = true) (h2 : ∀ c ∈ w2, pyIsSpace c = true) :
    pyStrip (pyLower (w1 ++ text ++ w2)) = pyStrip (pyLower text) := by
  unfold pyLower
  rw [List.map_append, List.map_append]
  exact pyStrip_pad (pyLower_space_pres h1) (pyLower_space_pres h2)

/-! ## Split/join round-trip machinery (for the skills formatters) -/

theorem containsSub_of_decomp {pat b a xs : List Char}
    (h : xs = b ++ pat ++ a) : containsSub pat xs = true := by
  unfold containsSub
  cases hs : splitFirst pat xs with
  | none => exact absurd h (splitFirst_none hs b a)
  | some p => rfl

theorem no_decomp_of_not_containsSub {pat xs : List Char}
    (h : containsSub pat xs = false) : ∀ b a, xs ≠ b ++ pat ++ a := by
  intro b a hx
  rw [containsSub_of_decomp hx] at h
  exact absurd h (by simp)

theorem containsSub_cons_of {pat xs : List Char} (c : Char)
    (h : containsSub pat xs = true) : containsSub pat (c :: xs) = true := by
  unfold containsSub at h
  cases hs : splitFirst pat xs with
  | none => rw [hs] at h; simp at h
  | some p =>
    obtain ⟨b, a⟩ := p
    have := splitFirst_eq hs
    exact @containsSub_of_decomp pat (c :: b) a (c :: xs) (by simpa using this)

/-- `sep` occurs in `x ++ sep` only as the final separator: no occurrence
inside `x` and none straddling the boundary between `x` and the appended
separator.  This is exactly the condition under which Python's greedy
left-to-right `split` undoes `join`. -/
def safeChunk (sep x : List Char) : Bool :=
  !containsSub sep ((x ++ sep).take (x.length + sep.length - 1))

theorem safeChunk_not_contains {sep x : List Char} (hsep : sep ≠ [])
    (h : safeChunk sep x = true) : containsSub sep x = false := by
  have hsep1 : 1 ≤ sep.length := by
    cases sep with
    | nil => exact absurd rfl hsep
    | cons _ _ => simp
  by_contra hc
  have hc' : containsSub sep x = true := by
    cases hcv : containsSub sep x with
    | false => exact absurd hcv hc
    | true => rfl
  unfold containsSub at hc'
  cases hs : splitFirst sep x with
  | none => rw [hs] at hc'; simp at hc'
  | some p =>
    obtain ⟨b, a⟩ := p
    have hx := splitFirst_eq hs
    have htake : (x ++ sep).take (x.length + sep.length - 1)
        = x ++ sep.take (sep.length - 1) := by
      rw [List.take_append_eq_append_take]
      congr 1
      · exact List.take_of_length_le (by omega)
      · congr 1
        omega
    have hdecomp : (x ++ sep).take (x.length + sep.length - 1)
        = b ++ sep ++ (a ++ sep.take (sep.length - 1)) := by
      rw [htake, hx]
      simp [List.append_assoc]
    have := containsSub_of_decomp hdecomp
    unfold safeChunk at h
    rw [this] at h
    simp at h

theorem splitFirst_startsWith {pat xs : List Char}
    (h : startsWithCh pat xs = true) :
    splitFirst pat xs = some ([], xs.drop pat.length) := by
  cases xs with
  | nil =>
    cases pat with
    | nil => simp [splitFirst, startsWithCh]
    | cons p ps => simp [startsWithCh] at h
  | cons c rest => simp [splitFirst, h]

/-- The truncation in `safeChunk` is reached by truncating the full string
`x ++ sep ++ t` at the same length. -/
theorem take_cap_append {x sep t : List Char} :
    (x ++ sep ++ t).take (x.length + sep.length - 1)
      = (x ++ sep).take (x.length + sep.length - 1) := by
  have hle : x.length + sep.length - 1 ≤ (x ++ sep).length := by
    simp only [List.length_append]
    omega
  rw [List.take_append_of_le_length hle]

/-- Under the no-straddling condition, the first occurrence of `sep` in
`x ++ sep ++ t` is exactly the explicit one. -/
theorem splitFirst_boundary {sep t : List Char} (hsep : sep ≠ []) :
    ∀ x, safeChunk sep x = true →
      splitFirst sep (x ++ sep ++ t) = some (x, t) := by
  have hsep1 : 1 ≤ sep.length := by
    cases sep with
    | nil => exact absurd rfl hsep
    | cons _ _ => simp
  intro x
  induction x with
  | nil =>
    intro _
    rw [List.nil_append]
    rw [splitFirst_startsWith (startsWithCh_of_append sep t)]
    rw [List.drop_left]
  | cons c x' ih =>
    intro hsafe
    have hnotpre : ¬ startsWithCh sep ((c :: x') ++ sep ++ t) = true := by
      intro hpre
      -- sep would be a prefix of the whole string, hence an occurrence of
      -- sep inside the truncated `x ++ sep`, contradicting safeChunk.
      have hdec := startsWithCh_eq_append hpre
      set R := ((c :: x') ++ sep ++ t).drop sep.length with hR
      have hcap : sep.length ≤ (c :: x').length + sep.length - 1 := by
        simp only [List.length_cons]
        omega
      have htk2 : ((c :: x') ++ sep ++ t).take ((c :: x').length + sep.length - 1)
          = sep ++ R.take ((c :: x').length + sep.length - 1 - sep.length) := by
        conv_lhs => rw [hdec]
        rw [List.take_append_eq_append_take]
        rw [List.take_of_length_le (le_of_eq_of_le rfl hcap)]
      have hcontains : containsSub sep
          (((c :: x') ++ sep).take ((c :: x').length + sep.length - 1)) = true := by
        rw [show ((c :: x') ++ sep).take ((c :: x').length + sep.length - 1)
              = ((c :: x') ++ sep ++ t).take ((c :: x').length + sep.length - 1)
            from take_cap_append.symm]
        exact @containsSub_of_decomp sep []
          (R.take ((c :: x').length + sep.length - 1 - sep.length))
          (((c :: x') ++ sep ++ t).take ((c :: x').length + sep.length - 1))
          (by simpa using htk2)
      unfold safeChunk at hsafe
      rw [hcontains] at hsafe
      simp at hsafe
    have hsafe' : safeChunk sep x' = true := by
      have hstep : ((c :: x') ++ sep).take ((c :: x').length + sep.length - 1)
          = c :: (x' ++ sep).take (x'.length + sep.length - 1) := by
        have h1 : (c :: x') ++ sep = c :: (x' ++ sep) := by simp
        have h2 : (c :: x').length + sep.length - 1
            = (x'.length + sep.length - 1) + 1 := by
          simp only [List.length_cons]
          omega
        rw [h1, h2, List.take_succ_cons]
      unfold safeChunk
      cases hcv : containsSub sep ((x' ++ sep).take (x'.length + sep.length - 1)) with
      | false => rfl
      | true =>
        exfalso
        have := containsSub_cons_of c hcv
        rw [← hstep] at this
        unfold safeChunk at hsafe
        rw [this] at hsafe
        simp at hsafe
    have hform : (c :: x') ++ sep ++ t = c :: (x' ++ sep ++ t) := by simp
    rw [hform]
    rw [hform] at hnotpre
    unfold splitFirst
    rw [if_neg hnotpre]
    rw [ih hsafe']
    rfl

/-- Python `sep.join(parts)`. -/
def pyJoin (sep : List Char) : List (List Char) → List Char
  | [] => []
  | [x] => x
  | x :: y :: rest => x ++ sep ++ pyJoin sep (y :: rest)

/-- Greedy split undoes join on safe chunks. -/
theorem pySplit_pyJoin {sep : List Char} (hsep : sep ≠ []) :
    ∀ l, l ≠ [] → (∀ x ∈ l, safeChunk sep x = true) →
      pySplit sep (pyJoin sep l) = l := by
  intro l
  induction l with
  | nil => intro h; exact absurd rfl h
  | cons x rest ih =>
    intro _ hsafe
    cases rest with
    | nil =>
      have hx := hsafe x (by simp)
      have hnc := safeChunk_not_contains hsep hx
      cases hs : splitFirst sep x with
      | some p =>
        obtain ⟨b, a⟩ := p
        exact absurd (splitFirst_eq hs) (no_decomp_of_not_containsSub hnc b a)
      | none => simpa [pyJoin] using pySplit_none hsep hs
    | cons y rest' =>
      have hx := hsafe x (by simp)
      have hjoin : pyJoin sep (x :: y :: rest') = x ++ sep ++ pyJoin sep (y :: rest') :=
        rfl
      rw [hjoin, pySplit_some hsep (splitFirst_boundary hsep x hx)]
      rw [ih (by simp) (fun z hz => hsafe z (by simp [hz]))]

theorem rstrip_decomp (y : List Char) :
    y = pyRstrip y ++ (y.reverse.takeWhile pyIsSpace).reverse := by
  have h := List.takeWhile_append_dropWhile pyIsSpace y.reverse
  calc y = y.reverse.reverse := (List.reverse_reverse y).symm
  _ = (y.reverse.takeWhile pyIsSpace ++ y.reverse.dropWhile pyIsSpace).reverse := by
        rw [h]
  _ = pyRstrip y ++ (y.reverse.takeWhile pyIsSpace).reverse := by
        rw [List.reverse_append]
        rfl

theorem pyLstrip_head_fix {z : List Char}
    (h : ∀ c, z.head? = some c → pyIsSpace c = false) : pyLstrip z = z := by
  cases z with
  | nil => rfl
  | cons c zs =>
    unfold pyLstrip
    rw [List.dropWhile_cons, if_neg (by simp [h c rfl])]

theorem pyStrip_idem (xs : List Char) : pyStrip (pyStrip xs) = pyStrip xs := by
  unfold pyStrip
  have hyhead : ∀ c, (pyLstrip xs).head? = some c → pyIsSpace c = false := by
    intro c hc
    unfold pyLstrip at hc
    exact head?_dropWhile_false hc
  have hz : pyLstrip (pyRstrip (pyLstrip xs)) = pyRstrip (pyLstrip xs) := by
    apply pyLstrip_head_fix
    intro c' hc'
    have hdec := rstrip_decomp (pyLstrip xs)
    cases hzv : pyRstrip (pyLstrip xs) with
    | nil => rw [hzv] at hc'; simp at hc'
    | cons c zs =>
      rw [hzv] at hc' hdec
      apply hyhead c'
      rw [hdec]
      simpa using hc'
  rw [hz, pyRstrip_idem]

/-! ## Skills formatting (`_process_horizontal_skills_list` lines 2248-2316,
`_format_skills_list` lines 3727-3767) -/

/-- Source: lines 2294-2296 of `_process_horizontal_skills_list`:
`skills = [s.strip() for s in text.split(input_separator.strip())]` followed by
`skills = [s for s in skills if s]`. -/
def parseSkills (input_separator text : List Char) : List (List Char) :=
  ((pySplit (pyStrip input_separator) text).map pyStrip).filter (fun s => !s.isEmpty)

/-- Source: `_format_skills_list` (lines 3727-3767).  In every branch the
emitted paragraph text is the skills joined with `separator`: a separator run
is added before each skill but the first (bold branch), or
`separator.join(skills)` is emitted as one run. -/
def formatSkillsText (separator : List Char) (skills : List (List Char)) : List Char :=
  pyJoin separator skills

theorem map_id_on {f : List Char → List Char} :
    ∀ {l : List (List Char)}, (∀ x ∈ l, f x = x) → l.map f = l := by
  intro l
  induction l with
  | nil => intro _; rfl
  | cons x xs ih =>
    intro h
    simp only [List.map_cons]
    rw [h x (by simp), ih (fun z hz => h z (by simp [hz]))]

/-- Every parsed skill is whitespace-trimmed and non-empty. -/
theorem parseSkills_mem {insep text x : List Char}
    (h : x ∈ parseSkills insep text) : pyStrip x = x ∧ x ≠ [] := by
  unfold parseSkills at h
  obtain ⟨hmem, hne⟩ := List.mem_filter.mp h
  obtain ⟨y, _, rfl⟩ := List.mem_map.mp hmem
  refine ⟨pyStrip_idem y, ?_⟩
  simpa using hne

/-! ## Bullet lists (`_add_bullet_list` lines 2913-2973,
`_process_list_item_formatting` lines 3696-3724) -/

/-- A BeautifulSoup child of an `li` element, as the list-item formatter
distinguishes them: a plain text node (`child.string`), a `strong` span, an
`em` span, or an anchor with its text and `href`. -/
inductive LiChild where
  | str (s : List Char)
  | strong (s : List Char)
  | em (s : List Char)
  | a (text href : List Char)
deriving DecidableEq

/-- A piece of docx paragraph content: a run added via `add_run` (text plus
bold/italic flags), or a hyperlink element added by `_add_hyperlink`.
`paragraph.runs` lists only the former: python-docx does not return runs
nested inside `w:hyperlink` elements. -/
inductive PElem where
  | run (text : List Char) (bold italic : Bool)
  | hyperlink (text url : List Char)
deriving DecidableEq

/-- Source: `_process_list_item_formatting` (lines 3696-3724).  `strong` and
`em` children become bold/italic runs; anchors with a non-empty `href` become
hyperlinks (with an empty `href` Python falls through to the `child.string`
branch); non-empty text children become plain runs, ensured per *child* when
`ensure_ending` is set; empty text children are skipped (falsy). -/
def process_list_item_formatting (ensure_ending : Bool) :
    List LiChild → List PElem
  | [] => []
  | child :: rest =>
    (match child with
     | LiChild.strong s => [PElem.run s true false]
     | LiChild.em s => [PElem.run s false true]
     | LiChild.a text href =>
        if href ≠ [] then [PElem.hyperlink text href]
        else if text ≠ [] then
          [PElem.run (if ensure_ending then ensure_sentence_ending text else text)
            false false]
        else []
     | LiChild.str s =>
        if s ≠ [] then
          [PElem.run (if ensure_ending then ensure_sentence_ending s else s)
            false false]
        else [])
    ++ process_list_item_formatting ensure_ending rest

/-- Paragraph-list branch of `_add_bullet_list` (lines 2928-2949): one
paragraph; for each item a newline run (except before the first), the bullet
character plus a space, then the item's content with `ensure_ending=True`. -/
def addBulletListParagraphAux (bullet_char : List Char) (first : Bool) :
    List (List LiChild) → List PElem
  | [] => []
  | li :: rest =>
    (if first then [] else [PElem.run ['\n'] false false])
    ++ [PElem.run (bullet_char ++ [' ']) false false]
    ++ process_list_item_formatting true li
    ++ addBulletListParagraphAux bullet_char false rest

def addBulletListParagraph (bullet_char : List Char)
    (items : List (List LiChild)) : List PElem :=
  addBulletListParagraphAux bullet_char true items

/-- Native-mode last-run normalization of `_add_bullet_list`
(lines 2960-2968): `last_run.text.rstrip()[-1:]` not in the punctuation list
means `last_run.text = last_run.text.rstrip() + "."`. -/
def nativeRunFix (t : List Char) : List Char :=
  if lastCharIn (pyRstrip t) sentencePunct then t else pyRstrip t ++ ['.']

def fixLastRunRev : List PElem → List PElem
  | [] => []
  | PElem.run t b i :: rest => PElem.run (nativeRunFix t) b i :: rest
  | e :: rest => e :: fixLastRunRev rest

/-- Replace the last run (the last element of `paragraph.runs`; hyperlink
elements are not runs) by its normalized text. -/
def fixLastRun (elems : List PElem) : List PElem :=
  (fixLastRunRev elems.reverse).reverse

/-- Native branch of `_add_bullet_list` (lines 2950-2973): one `List Bullet`
paragraph per item, content with `ensure_ending=False`, then the last-run
normalization. -/
def addBulletListNative (items : List (List LiChild)) : List (List PElem) :=
  items.map (fun li => fixLastRun (process_list_item_formatting false li))

/-- The text a reader sees: run texts and hyperlink display texts in order. -/
def renderText (elems : List PElem) : List Char :=
  (elems.map (fun e =>
    match e with
    | PElem.run t _ _ => t
    | PElem.hyperlink t _ => t)).flatten

/-! ## Page-break-on-hr (`_has_hr_before_element` lines 3822-3835,
`_prepare_section` lines 2180-2245) -/

/-- A BeautifulSoup sibling node as `_has_hr_before_element` sees it: an
element with a tag name, or a text node (whose `name` is `None`). -/
inductive BsNode where
  | elem (name : List Char)
  | textNode (s : List Char)
deriving DecidableEq

/-- Source: `_has_hr_before_element` (lines 3822-3835).  `prevs` lists the
element's previous siblings, nearest first.  The loop
`while prev and (not prev.name or prev.name == "br")` skips *all* text nodes
(their `name` is `None`, whatever their content) and `<br>` elements, then
tests for `hr`. -/
def has_hr_before_element : List BsNode → Bool
  | [] => false
  | BsNode.textNode _ :: rest => has_hr_before_element rest
  | BsNode.elem n :: rest =>
    if n = chars "br" then has_hr_before_element rest
    else n = chars "hr"

/-- Modelled from the claim's words (for the refutation): skip only
whitespace-only text nodes, then require an `hr`. -/
def hrBeforeSkippingWsOnly : List BsNode → Bool
  | [] => false
  | BsNode.textNode s :: rest =>
    if pyStrip s = [] then hrBeforeSkippingWsOnly rest else false
  | BsNode.elem n :: _ => n = chars "hr"

/-- A docx run for the page-break model: its text and how many explicit page
breaks `add_break` appended to it. -/
structure BRun where
  text : List Char
  breaks : Nat
deriving DecidableEq

/-- Page-break insertion of `_prepare_section` (lines 2213-2227) on the last
paragraph's runs: `add_break` on the last run, or on a fresh empty run. -/
def bumpLastRun (p : List BRun) : List BRun :=
  match p.getLast? with
  | none => [⟨[], 1⟩]
  | some r => p.dropLast ++ [⟨r.text, r.breaks + 1⟩]

/-- Page-break insertion of `_prepare_section` (lines 2213-2227): into the
last existing paragraph, or into a fresh paragraph when none exists. -/
def insertPageBreak (doc : List (List BRun)) : List (List BRun) :=
  match doc.getLast? with
  | none => [[⟨[], 1⟩]]
  | some p => doc.dropLast ++ [bumpLastRun p]

/-- Source: `_prepare_section` (lines 2209-2245), found case: page-break
handling driven by `_has_hr_before_element`, then the section heading is
appended (via `_add_heading_or_paragraph`, one new paragraph). -/
def prepare_section_found (doc : List (List BRun)) (prevs : List BsNode)
    (heading : List Char) : List (List BRun) :=
  (if has_hr_before_element prevs then insertPageBreak doc else doc)
    ++ [[⟨heading, 0⟩]]

/-- Total number of explicit page breaks in a document. -/
def pageBreakCount (doc : List (List BRun)) : Nat :=
  (doc.map (fun p => (p.map BRun.breaks).sum)).sum

theorem pageBreakCount_append (d1 d2 : List (List BRun)) :
    pageBreakCount (d1 ++ d2) = pageBreakCount d1 + pageBreakCount d2 := by
  unfold pageBreakCount
  rw [List.map_append, List.sum_append]

theorem bumpLastRun_sum (p : List BRun) :
    ((bumpLastRun p).map BRun.breaks).sum = (p.map BRun.breaks).sum + 1 := by
  unfold bumpLastRun
  cases hd : p.getLast? with
  | none =>
    have hpn : p = [] := List.getLast?_eq_none_iff.mp hd
    subst hpn
    simp
  | some r =>
    have hne : p ≠ [] := by
      intro h
      subst h
      simp at hd
    have hr : p.getLast hne = r := by
      have hg := List.getLast?_eq_getLast p hne
      rw [hd] at hg
      exact (Option.some.inj hg).symm
    have hp : p.dropLast ++ [r] = p := by
      rw [← hr]
      exact List.dropLast_append_getLast hne
    show ((p.dropLast ++ [(⟨r.text, r.breaks + 1⟩ : BRun)]).map BRun.breaks).sum
        = (p.map BRun.breaks).sum + 1
    conv_rhs => rw [← hp]
    rw [List.map_append, List.sum_append, List.map_append, List.sum_append]
    simp
    omega

theorem insertPageBreak_count (doc : List (List BRun)) :
    pageBreakCount (insertPageBreak doc) = pageBreakCount doc + 1 := by
  unfold insertPageBreak
  cases hd : doc.getLast? with
  | none =>
    have hdn : doc = [] := List.getLast?_eq_none_iff.mp hd
    subst hdn
    simp [pageBreakCount]
  | some p =>
    have hne : doc ≠ [] := by
      intro h
      subst h
      simp at hd
    have hr : doc.getLast hne = p := by
      have hg := List.getLast?_eq_getLast doc hne
      rw [hd] at hg
      exact (Option.some.inj hg).symm
    have hp : doc.dropLast ++ [p] = doc := by
      rw [← hr]
      exact List.dropLast_append_getLast hne
    show pageBreakCount (doc.dropLast ++ [bumpLastRun p]) = pageBreakCount doc + 1
    conv_rhs => rw [← hp]
    rw [pageBreakCount_append, pageBreakCount_append]
    have h1 : pageBreakCount [bumpLastRun p] = pageBreakCount [p] + 1 := by
      simp [pageBreakCount, bumpLastRun_sum]
    omega

theorem insertPageBreak_length {doc : List (List BRun)} (hne : doc ≠ []) :
    (insertPageBreak doc).length = doc.length := by
  unfold insertPageBreak
  cases hd : doc.getLast? with
  | none => exact absurd (List.getLast?_eq_none_iff.mp hd) hne
  | some p =>
    show (doc.dropLast ++ [bumpLastRun p]).length = doc.length
    rw [List.length_append, List.length_dropLast]
    have : 1 ≤ doc.length := by
      cases doc with
      | nil => exact absurd rfl hne
      | cons _ _ => simp
    simp
    omega

theorem insertPageBreak_take {doc : List (List BRun)} (hne : doc ≠ []) :
    (insertPageBreak doc).take (doc.length - 1) = doc.take (doc.length - 1) := by
  unfold insertPageBreak
  cases hd : doc.getLast? with
  | none => exact absurd (List.getLast?_eq_none_iff.mp hd) hne
  | some p =>
    have hr : doc.getLast hne = p := by
      have hg := List.getLast?_eq_getLast doc hne
      rw [hd] at hg
      exact (Option.some.inj hg).symm
    have hp : doc.dropLast ++ [p] = doc := by
      rw [← hr]
      exact List.dropLast_append_getLast hne
    show (doc.dropLast ++ [bumpLastRun p]).take (doc.length - 1)
        = doc.take (doc.length - 1)
    have hlen : doc.dropLast.length = doc.length - 1 := List.length_dropLast doc
    have hrhs : doc.take (doc.length - 1) = doc.dropLast :=
      (List.dropLast_eq_take doc).symm
    rw [hrhs, ← hlen, List.take_left]

/-! ## Document assembly (`create_ats_resume` lines 688-911, standard path
lines 842-911; `ResumeSection` lines 168-275) -/

/-- Python `str.upper` (ASCII). -/
def pyUpper (xs : List Char) : List Char := xs.map Char.toUpper

/-- One entry of the `resume_sections` configuration, in YAML order
(`ResumeSection.__init__`, lines 175-196; only the fields the assembly path
reads are modelled). -/
structure SectionCfg where
  key : List Char
  markdown_heading : List Char
  docx_heading : List Char
deriving DecidableEq

/-- `ResumeSection.matches` (lines 198-207): `text.lower()` equals the
configured heading lowered. -/
def sectionMatches (cfg : SectionCfg) (text : List Char) : Bool :=
  pyLower text = pyLower cfg.markdown_heading

/-- The markdown tree, at the granularity the section locator reads it:
the texts of the `h2` heading elements in document order. -/
abbrev MdTree := List (List Char)

/-- `soup.find("h2", string=lambda t: section_type.matches(t))` in
`_prepare_section` (line 2196): the first matching h2, or `None`. -/
def findSectionH2 (md : MdTree) (cfg : SectionCfg) : Option (List Char) :=
  md.find? (fun t => sectionMatches cfg t)

/-- Output document elements, tagged at the granularity the ordering claims
need: the header block (h1 name + tagline + rule) and, per section, its
heading and body. -/
inductive OutEl where
  | headerBlock
  | sectionHeading (docx_heading : List Char)
  | sectionBody (key : List Char)
deriving DecidableEq

/-- A processor of the standard path: the header processor, or a section
processor bound to its configuration entry. -/
inductive ProcKind where
  | header
  | sec (cfg : SectionCfg)
deriving DecidableEq

/-- What one processor emits on a given tree: `process_header_section` always
emits the header block; every `process_*_section` goes through
`_prepare_section` (lines 2196-2200) and emits nothing when its h2 is absent,
else its section heading and body. -/
def procRun (md : MdTree) : ProcKind → List OutEl
  | ProcKind.header => [OutEl.headerBlock]
  | ProcKind.sec cfg =>
    match findSectionH2 md cfg with
    | some _ => [OutEl.sectionHeading cfg.docx_heading, OutEl.sectionBody cfg.key]
    | none => []

/-- The section keys that get a processor registered in
`section_processor_map` (lines 844-884). -/
def knownSectionKeys : List (List Char) :=
  [chars "ABOUT", chars "SKILLS", chars "EXPERIENCE", chars "PROJECTS",
    chars "CERTIFICATIONS", chars "EDUCATION", chars "CONTACT"]

/-- The `section_processor_map` construction plus the YAML-ordered iteration
(lines 844-891): for each configured section in configuration order, the
processors registered for its upper-cased key; the about entry registers the
required header processor first (lines 847-854).  YAML mappings have unique
keys, so the identity-keyed dictionary lookup of the source is equivalent to
this per-entry membership test. -/
def sectionProcessorsFor (cfgs : List SectionCfg) : List (Bool × ProcKind) :=
  cfgs.flatMap (fun cfg =>
    if pyUpper cfg.key = chars "ABOUT" then
      [(true, ProcKind.header), (false, ProcKind.sec cfg)]
    else if pyUpper cfg.key ∈ knownSectionKeys then [(false, ProcKind.sec cfg)]
    else [])

/-- Is an `Except` outcome an error? -/
def exceptIsError {E α : Type} : Except E α → Bool
  | Except.error _ => true
  | Except.ok _ => false

/-- The try/except loop over section processors (lines 893-903): a required
processor's exception re-raises; a non-required one prints a warning and the
loop continues; the emitted elements accumulate in order. -/
def runProcessors {E : Type} :
    List (Bool × Except E (List OutEl)) → Except E (List OutEl)
  | [] => Except.ok []
  | (required, r) :: rest =>
    match r with
    | Except.ok els => (runProcessors rest).map (fun out => els ++ out)
    | Except.error e => if required then Except.error e else runProcessors rest

/-- `create_ats_resume`, standard path (lines 842-911): the elements of the
document saved at line 909 when no processor raises. -/
def create_ats_resume_std (cfgs : List SectionCfg) (md : MdTree) : List OutEl :=
  (sectionProcessorsFor cfgs).flatMap (fun p => procRun md p.2)

/-- The loop applied to non-raising processors succeeds with the document the
standard path saves. -/
theorem runProcessors_ok (cfgs : List SectionCfg) (md : MdTree) :
    runProcessors ((sectionProcessorsFor cfgs).map
        (fun p => (p.1, Except.ok (ε := List Char) (procRun md p.2))))
      = Except.ok (create_ats_resume_std cfgs md) := by
  unfold create_ats_resume_std
  generalize sectionProcessorsFor cfgs = procs
  induction procs with
  | nil => rfl
  | cons p rest ih =>
    obtain ⟨b, k⟩ := p
    simp only [List.map_cons, List.flatMap_cons, runProcessors, ih, Except.map]

/-- The section keys of the emitted section bodies, in output order. -/
def emittedSectionKeys (els : List OutEl) : List (List Char) :=
  els.filterMap (fun e =>
    match e with
    | OutEl.sectionBody k => some k
    | _ => none)

/-- Whether a configured section's heading is present in the tree. -/
def sectionPresent (md : MdTree) (cfg : SectionCfg) : Bool :=
  (findSectionH2 md cfg).isSome

theorem sectionPresent_eq_any (md : MdTree) (cfg : SectionCfg) :
    sectionPresent md cfg = md.any (fun t => sectionMatches cfg t) := by
  unfold sectionPresent findSectionH2
  induction md with
  | nil => rfl
  | cons t rest ih =>
    rw [List.find?_cons, List.any_cons]
    cases hm : sectionMatches cfg t with
    | true => rfl
    | false => simpa using ih

theorem sectionPresent_perm {md1 md2 : MdTree} (h : md1.Perm md2)
    (cfg : SectionCfg) : sectionPresent md1 cfg = sectionPresent md2 cfg := by
  rw [sectionPresent_eq_any, sectionPresent_eq_any]
  cases ha : md1.any (fun t => sectionMatches cfg t) with
  | true =>
    obtain ⟨x, hx, hfx⟩ := List.any_eq_true.mp ha
    exact (List.any_eq_true.mpr ⟨x, h.mem_iff.mp hx, hfx⟩).symm
  | false =>
    cases hb : md2.any (fun t => sectionMatches cfg t) with
    | false => rfl
    | true =>
      obtain ⟨x, hx, hfx⟩ := List.any_eq_true.mp hb
      rw [← ha]
      exact List.any_eq_true.mpr ⟨x, h.mem_iff.mpr hx, hfx⟩

/-- A configured section registers a processor iff its key is known. -/
def knownKey (cfg : SectionCfg) : Bool := pyUpper cfg.key ∈ knownSectionKeys

/-- The emitted section keys are the configured keys, in configuration order,
restricted to known and present sections. -/
theorem emittedSectionKeys_eq (cfgs : List SectionCfg) (md : MdTree) :
    emittedSectionKeys (create_ats_resume_std cfgs md)
      = ((cfgs.filter (fun cfg => knownKey cfg && sectionPresent md cfg)).map
          SectionCfg.key) := by
  have hbody : ∀ c : SectionCfg,
      emittedSectionKeys (procRun md (ProcKind.sec c))
        = (if sectionPresent md c then [c.key] else []) := by
    intro c
    unfold sectionPresent
    cases hf : findSectionH2 md c with
    | some t => simp [procRun, hf, emittedSectionKeys]
    | none => simp [procRun, hf, emittedSectionKeys]
  induction cfgs with
  | nil => rfl
  | cons cfg rest ih =>
    have hstep : create_ats_resume_std (cfg :: rest) md
        = ((if pyUpper cfg.key = chars "ABOUT" then
              [(true, ProcKind.header), (false, ProcKind.sec cfg)]
            else if pyUpper cfg.key ∈ knownSectionKeys then
              [(false, ProcKind.sec cfg)]
            else []).flatMap (fun p => procRun md p.2))
          ++ create_ats_resume_std rest md := by
      unfold create_ats_resume_std sectionProcessorsFor
      rw [List.flatMap_cons, List.flatMap_append]
    have hsplit : emittedSectionKeys (create_ats_resume_std (cfg :: rest) md)
        = emittedSectionKeys
            ((if pyUpper cfg.key = chars "ABOUT" then
                [(true, ProcKind.header), (false, ProcKind.sec cfg)]
              else if pyUpper cfg.key ∈ knownSectionKeys then
                [(false, ProcKind.sec cfg)]
              else []).flatMap (fun p => procRun md p.2))
          ++ emittedSectionKeys (create_ats_resume_std rest md) := by
      rw [hstep]
      unfold emittedSectionKeys
      rw [List.filterMap_append]
    rw [hsplit, ih, List.filter_cons]
    by_cases hab : pyUpper cfg.key = chars "ABOUT"
    · have hknown : knownKey cfg = true := by
        unfold knownKey
        rw [hab]
        decide
      rw [if_pos hab, hknown, Bool.true_and]
      have hhead : emittedSectionKeys
          ([(true, ProcKind.header), (false, ProcKind.sec cfg)].flatMap
            (fun p => procRun md p.2))
          = (if sectionPresent md cfg then [cfg.key] else []) := by
        have h0 : ([(true, ProcKind.header), (false, ProcKind.sec cfg)].flatMap
            (fun p => procRun md p.2))
            = [OutEl.headerBlock] ++ procRun md (ProcKind.sec cfg) := by
          simp [procRun]
        rw [h0]
        unfold emittedSectionKeys at hbody ⊢
        rw [List.filterMap_append]
        rw [hbody cfg]
        rfl
      rw [hhead]
      cases hp : sectionPresent md cfg with
      | true => simp
      | false => simp
    · rw [if_neg hab]
      by_cases hk : pyUpper cfg.key ∈ knownSectionKeys
      · have hknown : knownKey cfg = true := by
          unfold knownKey
          simpa using hk
        rw [if_pos hk, hknown, Bool.true_and]
        have hhead : emittedSectionKeys
            ([((false : Bool), ProcKind.sec cfg)].flatMap (fun p => procRun md p.2))
            = (if sectionPresent md cfg then [cfg.key] else []) := by
          have h0 : ([((false : Bool), ProcKind.sec cfg)].flatMap
              (fun p => procRun md p.2)) = procRun md (ProcKind.sec cfg) := by
            simp
          rw [h0, hbody cfg]
        rw [hhead]
        cases hp : sectionPresent md cfg with
        | true => simp
        | false => simp
      · have hknown : knownKey cfg = false := by
          unfold knownKey
          simpa using hk
        rw [if_neg hk, hknown, Bool.false_and]
        simp [emittedSectionKeys]

/-! ## Link detection (`MD_LINK_PATTERN`/`URL_PATTERN`/`EMAIL_PATTERN`
line 39-41, `_detect_link` lines 3838-3872, `_format_url` lines 3875-3886,
`_process_text_for_hyperlinks` lines 3889-3953) -/

/-- First occurrence of `pat` reachable without crossing a newline: regex `.`
does not match `\n`, so a lazy group ending at `pat` must be newline-free. -/
def splitFirstNoNl (pat : List Char) : List Char → Option (List Char × List Char)
  | [] => if startsWithCh pat [] then some ([], []) else none
  | c :: rest =>
    if startsWithCh pat (c :: rest) then some ([], (c :: rest).drop pat.length)
    else if c = '\n' then none
    else (splitFirstNoNl pat rest).map (fun p => (c :: p.1, p.2))

theorem splitFirstNoNl_eq {pat xs b a : List Char}
    (h : splitFirstNoNl pat xs = some (b, a)) :
    xs = b ++ pat ++ a ∧ '\n' ∉ b := by
  induction xs generalizing b a with
  | nil =>
    simp only [splitFirstNoNl] at h
    split at h
    · next hpre =>
      have h2 : (([] : List Char), ([] : List Char)) = (b, a) := Option.some.inj h
      cases h2
      exact ⟨by simpa using (startsWithCh_eq_append hpre).symm, by simp⟩
    · exact absurd h (by simp)
  | cons c rest ih =>
    simp only [splitFirstNoNl] at h
    split at h
    · next hpre =>
      have h2 : (([] : List Char), (c :: rest).drop pat.length) = (b, a) :=
        Option.some.inj h
      cases h2
      exact ⟨by simpa using startsWithCh_eq_append hpre, by simp⟩
    · next hpre =>
      split at h
      · exact absurd h (by simp)
      · next hnl =>
        cases hrec : splitFirstNoNl pat rest with
        | none => rw [hrec] at h; simp at h
        | some p =>
          obtain ⟨b', a'⟩ := p
          rw [hrec] at h
          have h2 : (c :: b', a') = (b, a) := Option.some.inj h
          cases h2
          obtain ⟨he, hn⟩ := ih hrec
          refine ⟨by simpa using he, ?_⟩
          intro hmem
          rcases List.mem_cons.mp hmem with hc | hc
          · exact hnl hc.symm
          · exact hn hc

/-- If `splitFirstNoNl` fails, every occurrence of `pat` has a newline
before it. -/
theorem splitFirstNoNl_none {pat xs : List Char}
    (h : splitFirstNoNl pat xs = none) :
    ∀ b a, xs = b ++ pat ++ a → '\n' ∈ b := by
  induction xs with
  | nil =>
    intro b a hx
    simp only [splitFirstNoNl] at h
    split at h
    · simp at h
    · next hpre =>
      exfalso
      have hb : b = [] := by
        cases b with
        | nil => rfl
        | cons _ _ => simp at hx
      subst hb
      have hp : pat = [] := by
        cases pat with
        | nil => rfl
        | cons _ _ => simp at hx
      rw [hp] at hpre
      simp [startsWithCh] at hpre
  | cons c rest ih =>
    intro b a hx
    simp only [splitFirstNoNl] at h
    split at h
    · simp at h
    · next hpre =>
      cases b with
      | nil =>
        exfalso
        simp only [List.nil_append] at hx
        rw [hx, startsWithCh_of_append] at hpre
        exact absurd hpre (by simp)
      | cons cb b'' =>
        have hcb : cb = c := by
          have := congrArg List.head? hx
          simpa using this.symm
        subst hcb
        split at h
        · next hnl => simp [hnl]
        · cases hrec : splitFirstNoNl pat rest with
          | none =>
            have hx' : rest = b'' ++ pat ++ a := by
              simpa using congrArg List.tail hx
            exact List.mem_cons_of_mem _ (ih hrec b'' a hx')
          | some p => rw [hrec] at h; simp at h

/-- The full matched text of a markdown-link match with groups `g1`, `g2`. -/
def mdMatched (g1 g2 : List Char) : List Char :=
  '[' :: (g1 ++ chars "](" ++ g2 ++ [')'])

/-- Search for the leftmost match of `MD_LINK_PATTERN` = `\[(.*?)\]\((.*?)\)`
(line 39): at each `[`, the lazy group 1 runs to the first `](` and the lazy
group 2 to the first `)` after it; `.` does not match newlines, so both
groups are newline-free; start positions are tried left to right.
(When no `)` is reachable after the first `](`, none is reachable after any
later `](` either, so no backtracking case is lost.)  Returns
`(pre, group1, group2, post)`. -/
def mdSearch : List Char → Option (List Char × List Char × List Char × List Char)
  | [] => none
  | c :: rest =>
    if c = '[' then
      match splitFirstNoNl (chars "](") rest with
      | some (g1, rest2) =>
        match splitFirstNoNl [')'] rest2 with
        | some (g2, post) => some ([], g1, g2, post)
        | none => (mdSearch rest).map (fun r => (c :: r.1, r.2))
      | none => (mdSearch rest).map (fun r => (c :: r.1, r.2))
    else (mdSearch rest).map (fun r => (c :: r.1, r.2))

/-- Soundness of `mdSearch`: a genuine newline-free-group match at `pre`. -/
theorem mdSearch_eq {text pre g1 g2 post : List Char}
    (h : mdSearch text = some (pre, g1, g2, post)) :
    text = pre ++ mdMatched g1 g2 ++ post ∧ '\n' ∉ g1 ∧ '\n' ∉ g2 := by
  induction text generalizing pre with
  | nil => simp [mdSearch] at h
  | cons c rest ih =>
    simp only [mdSearch] at h
    split at h
    · next hc =>
      subst hc
      cases h1 : splitFirstNoNl (chars "](") rest with
      | some p1 =>
        obtain ⟨g1', rest2⟩ := p1
        simp only [h1] at h
        cases h2 : splitFirstNoNl [')'] rest2 with
        | some p2 =>
          obtain ⟨g2', post'⟩ := p2
          simp only [h2] at h
          have h3 : (([] : List Char), g1', g2', post') = (pre, g1, g2, post) :=
            Option.some.inj h
          cases h3
          obtain ⟨he1, hn1⟩ := splitFirstNoNl_eq h1
          obtain ⟨he2, hn2⟩ := splitFirstNoNl_eq h2
          refine ⟨?_, hn1, hn2⟩
          rw [List.nil_append]
          unfold mdMatched
          rw [he1, he2]
          simp
        | none =>
          simp only [h2] at h
          cases hrec : mdSearch rest with
          | none => rw [hrec] at h; simp at h
          | some r =>
            obtain ⟨pre', rest'⟩ := r
            rw [hrec] at h
            have h3 : ('[' :: pre', rest') = (pre, g1, g2, post) := Option.some.inj h
            cases h3
            obtain ⟨he, hn1', hn2'⟩ := ih hrec
            exact ⟨by simpa using he, hn1', hn2'⟩
      | none =>
        simp only [h1] at h
        cases hrec : mdSearch rest with
        | none => rw [hrec] at h; simp at h
        | some r =>
          obtain ⟨pre', rest'⟩ := r
          rw [hrec] at h
          have h3 : ('[' :: pre', rest') = (pre, g1, g2, post) := Option.some.inj h
          cases h3
          obtain ⟨he, hn1', hn2'⟩ := ih hrec
          exact ⟨by simpa using he, hn1', hn2'⟩
    · next hc =>
      cases hrec : mdSearch rest with
      | none => rw [hrec] at h; simp at h
      | some r =>
        obtain ⟨pre', rest'⟩ := r
        rw [hrec] at h
        have h3 : (c :: pre', rest') = (pre, g1, g2, post) := Option.some.inj h
        cases h3
        obtain ⟨he, hn1', hn2'⟩ := ih hrec
        exact ⟨by simpa using he, hn1', hn2'⟩

/-- `splitFirstNoNl` finds the overall first occurrence when it succeeds. -/
theorem splitFirstNoNl_leftmost {pat xs b a : List Char}
    (h : splitFirstNoNl pat xs = some (b, a)) :
    ∀ b' a', xs = b' ++ pat ++ a' → b.length ≤ b'.length := by
  induction xs generalizing b a with
  | nil =>
    intro b' a' hx
    simp only [splitFirstNoNl] at h
    split at h
    · have h2 : (([] : List Char), ([] : List Char)) = (b, a) := Option.some.inj h
      cases h2
      simp
    · exact absurd h (by simp)
  | cons c rest ih =>
    intro b' a' hx
    simp only [splitFirstNoNl] at h
    split at h
    · have h2 : (([] : List Char), (c :: rest).drop pat.length) = (b, a) :=
        Option.some.inj h
      cases h2
      simp
    · next hpre =>
      split at h
      · exact absurd h (by simp)
      · cases b' with
        | nil =>
          exfalso
          simp only [List.nil_append] at hx
          rw [hx, startsWithCh_of_append] at hpre
          exact absurd hpre (by simp)
        | cons cb b'' =>
          cases hrec : splitFirstNoNl pat rest with
          | none => rw [hrec] at h; simp at h
          | some p =>
            obtain ⟨bb, aa⟩ := p
            rw [hrec] at h
            have h2 : (c :: bb, aa) = (b, a) := Option.some.inj h
            cases h2
            have hx' : rest = b'' ++ pat ++ a' := by
              simpa using congrArg List.tail hx
            have := ih hrec b'' a' hx'
            simpa using Nat.succ_le_succ this

/-- Two decompositions of the same list with ordered prefix lengths. -/
theorem append_eq_append_of_le {b1 g1 u v : List Char}
    (h : b1 ++ u = g1 ++ v) (hl : b1.length ≤ g1.length) :
    ∃ m, g1 = b1 ++ m ∧ u = m ++ v := by
  rcases List.append_eq_append_iff.mp h with ⟨a', ha1, ha2⟩ | ⟨c', hc1, hc2⟩
  · exact ⟨a', ha1, ha2⟩
  · have hlen : b1.length = g1.length + c'.length := by
      rw [hc1]
      simp
    have hc'nil : c' = [] := by
      have : c'.length = 0 := by omega
      exact List.length_eq_zero.mp this
    subst hc'nil
    refine ⟨[], by simpa using hc1.symm, ?_⟩
    simp only [List.nil_append]
    simpa using hc2.symm

/-- A markdown-link pattern match starting at the head of `s`: some
newline-free groups with the literal brackets around them. -/
def MdAt (s : List Char) : Prop :=
  ∃ g1 g2 rest, s = mdMatched g1 g2 ++ rest ∧ '\n' ∉ g1 ∧ '\n' ∉ g2

/-- If a markdown-link match starts at a `[`, both lazy-group scans of
`mdSearch` succeed there. -/
theorem mdAt_splits {tail : List Char} (h : MdAt ('[' :: tail)) :
    ∃ g1 rest2, splitFirstNoNl (chars "](") tail = some (g1, rest2)
      ∧ ∃ g2 post, splitFirstNoNl [')'] rest2 = some (g2, post) := by
  obtain ⟨g1, g2, rest, hs, hn1, hn2⟩ := h
  have htail : tail = g1 ++ chars "](" ++ (g2 ++ [')'] ++ rest) := by
    unfold mdMatched at hs
    have := congrArg List.tail hs
    simpa [List.append_assoc] using this
  -- the first scan cannot fail
  cases h1 : splitFirstNoNl (chars "](") tail with
  | none =>
    exfalso
    have := splitFirstNoNl_none h1 g1 (g2 ++ [')'] ++ rest) htail
    exact hn1 this
  | some p1 =>
    obtain ⟨b1, a1⟩ := p1
    obtain ⟨he1, hb1⟩ := splitFirstNoNl_eq h1
    refine ⟨b1, a1, rfl, ?_⟩
    -- relate a1 to the known decomposition: the found occurrence is at or
    -- before g1, so a1 still contains the closing parenthesis with no
    -- newline before it.
    have hle : b1.length ≤ g1.length := splitFirstNoNl_leftmost h1 g1 _ htail
    have hcomb : b1 ++ (chars "](" ++ a1) = g1 ++ (chars "](" ++ (g2 ++ [')'] ++ rest)) := by
      rw [← List.append_assoc, ← List.append_assoc, ← he1, ← htail]
    obtain ⟨m, hm1, hm2⟩ := append_eq_append_of_le hcomb hle
    have ha1 : a1 = (m ++ chars "](").drop (chars "](").length
        ++ (g2 ++ [')'] ++ rest) := by
      have hdrop := congrArg (List.drop (chars "](").length) hm2
      rw [List.drop_left] at hdrop
      rw [hdrop, ← List.append_assoc]
      rw [List.drop_append_eq_append_drop]
      have hz : (chars "](").length - (m ++ chars "](").length = 0 := by
        simp
      rw [hz]
      simp
    have hnw : '\n' ∉ (m ++ chars "](").drop (chars "](").length ++ g2 := by
      intro hmem
      rcases List.mem_append.mp hmem with hw | hw
      · have := List.mem_of_mem_drop hw
        rcases List.mem_append.mp this with hm' | hp'
        · have : '\n' ∈ g1 := by
            rw [hm1]
            exact List.mem_append.mpr (Or.inr hm')
          exact hn1 this
        · simp [chars] at hp'
      · exact hn2 hw
    cases h2 : splitFirstNoNl [')'] a1 with
    | none =>
      exfalso
      have hdec : a1 = ((m ++ chars "](").drop (chars "](").length ++ g2)
          ++ [')'] ++ rest := by
        rw [ha1]
        simp [List.append_assoc]
      exact hnw (splitFirstNoNl_none h2 _ rest hdec)
    | some p2 =>
      obtain ⟨g2', post'⟩ := p2
      exact ⟨g2', post', rfl⟩

/-- A failing `mdSearch` on a cons still fails on the tail. -/
theorem mdSearch_none_tail {c : Char} {rest : List Char}
    (h : mdSearch (c :: rest) = none) : mdSearch rest = none := by
  simp only [mdSearch] at h
  split at h
  · cases h1 : splitFirstNoNl (chars "](") rest with
    | some p1 =>
      obtain ⟨g1', rest2⟩ := p1
      simp only [h1] at h
      cases h2 : splitFirstNoNl [')'] rest2 with
      | some p2 =>
        obtain ⟨g2', post'⟩ := p2
        simp only [h2] at h
        exact absurd h (by simp)
      | none =>
        simp only [h2] at h
        exact Option.map_eq_none'.mp h
    | none =>
      simp only [h1] at h
      exact Option.map_eq_none'.mp h
  · exact Option.map_eq_none'.mp h

/-- Completeness: when `mdSearch` fails there is no markdown-link match at
any position. -/
theorem mdSearch_none {text : List Char} (h : mdSearch text = none) :
    ∀ b s, text = b ++ s → ¬ MdAt s := by
  induction text with
  | nil =>
    intro b s hx hat
    obtain ⟨g1, g2, rest, hs, _, _⟩ := hat
    have : s = [] := by
      cases b with
      | nil => simpa using hx.symm
      | cons _ _ => simp at hx
    rw [this] at hs
    simp [mdMatched] at hs
  | cons c rest ih =>
    intro b s hx hat
    cases b with
    | nil =>
      simp only [List.nil_append] at hx
      subst hx
      have hc : c = '[' := by
        obtain ⟨g1, g2, r, hs, hn1, hn2⟩ := hat
        have := congrArg List.head? hs
        simpa [mdMatched] using this
      subst hc
      obtain ⟨g1', rest2, h1, g2', post', h2⟩ := mdAt_splits hat
      have hval : mdSearch ('[' :: rest) = some ([], g1', g2', post') := by
        simp [mdSearch, h1, h2]
      rw [hval] at h
      simp at h
    | cons cb b' =>
      have hcb : cb = c := by
        have := congrArg List.head? hx
        simpa using this.symm
      subst hcb
      have hx' : rest = b' ++ s := by
        simpa using congrArg List.tail hx
      exact ih (mdSearch_none_tail h) b' s hx' hat

/-- Leftmost-ness: a successful `mdSearch` admits no markdown-link match at
any strictly earlier position. -/
theorem mdSearch_leftmost {text pre g1 g2 post : List Char}
    (h : mdSearch text = some (pre, g1, g2, post)) :
    ∀ b s, text = b ++ s → b.length < pre.length → ¬ MdAt s := by
  induction text generalizing pre with
  | nil => simp [mdSearch] at h
  | cons c rest ih =>
    intro b s hx hlt hat
    cases b with
    | nil =>
      -- an earlier match at position 0 forces mdSearch to succeed at 0 with
      -- pre = [], contradicting 0 < pre.length
      simp only [List.nil_append] at hx
      subst hx
      have hc : c = '[' := by
        obtain ⟨g1x, g2x, r, hs, hn1x, hn2x⟩ := hat
        have := congrArg List.head? hs
        simpa [mdMatched] using this
      subst hc
      obtain ⟨g1', rest2, h1, g2', post', h2⟩ := mdAt_splits hat
      have hval : mdSearch ('[' :: rest) = some ([], g1', g2', post') := by
        simp [mdSearch, h1, h2]
      rw [hval] at h
      have h3 : (([] : List Char), g1', g2', post') = (pre, g1, g2, post) :=
        Option.some.inj h
      cases h3
      simp at hlt
    | cons cb b' =>
      have hx' : rest = b' ++ s := by
        simpa using congrArg List.tail hx
      -- mdSearch (c :: rest) = some with nonempty pre means the head failed
      -- and the result is the mapped tail result
      have htail : ∃ pre', mdSearch rest = some (pre', g1, g2, post)
          ∧ pre = c :: pre' := by
        simp only [mdSearch] at h
        split at h
        · cases h1 : splitFirstNoNl (chars "](") rest with
          | some p1 =>
            obtain ⟨g1'', rest2⟩ := p1
            simp only [h1] at h
            cases h2 : splitFirstNoNl [')'] rest2 with
            | some p2 =>
              obtain ⟨g2'', post''⟩ := p2
              simp only [h2] at h
              have h3 : (([] : List Char), g1'', g2'', post'')
                  = (pre, g1, g2, post) := Option.some.inj h
              cases h3
              simp at hlt
            | none =>
              simp only [h2] at h
              cases hrec : mdSearch rest with
              | none => rw [hrec] at h; simp at h
              | some rr =>
                obtain ⟨pre', rest'⟩ := rr
                rw [hrec] at h
                have h3 := Option.some.inj h
                cases h3
                exact ⟨pre', rfl, rfl⟩
          | none =>
            simp only [h1] at h
            cases hrec : mdSearch rest with
            | none => rw [hrec] at h; simp at h
            | some rr =>
              obtain ⟨pre', rest'⟩ := rr
              rw [hrec] at h
              have h3 := Option.some.inj h
              cases h3
              exact ⟨pre', rfl, rfl⟩
        · cases hrec : mdSearch rest with
          | none => rw [hrec] at h; simp at h
          | some rr =>
            obtain ⟨pre', rest'⟩ := rr
            rw [hrec] at h
            have h3 := Option.some.inj h
            cases h3
            exact ⟨pre', rfl, rfl⟩
      obtain ⟨pre', hrec, hpre⟩ := htail
      subst hpre
      have hlt' : b'.length < pre'.length := by
        simpa using hlt
      exact ih hrec b' s hx' hlt' hat

/-- One alternative of `URL_PATTERN` (line 40) at the start of `s`: the given
scheme prefix followed by the maximal non-empty whitespace-free run. -/
def urlAlt (scheme s : List Char) : Option (List Char) :=
  if startsWithCh scheme s then
    if (s.drop scheme.length).takeWhile (fun c => !pyIsSpace c) = [] then none
    else some (scheme ++ (s.drop scheme.length).takeWhile (fun c => !pyIsSpace c))
  else none

/-- Match of `URL_PATTERN` = `https?://[^\s]+|www\.[^\s]+` (line 40) at the
start of `s`, alternatives in regex order.  Returns the matched text. -/
def urlStartAt (s : List Char) : Option (List Char) :=
  match urlAlt (chars "https://") s with
  | some m => some m
  | none =>
    match urlAlt (chars "http://") s with
    | some m => some m
    | none => urlAlt (chars "www.") s

/-- Leftmost `URL_PATTERN` match: `(pre, matched, post)`. -/
def urlSearch : List Char → Option (List Char × List Char × List Char)
  | [] => none
  | c :: rest =>
    match urlStartAt (c :: rest) with
    | some m => some ([], m, (c :: rest).drop m.length)
    | none => (urlSearch rest).map (fun r => (c :: r.1, r.2.1, r.2.2))

/-- The shape of a `URL_PATTERN` match: a scheme prefix and a non-empty
whitespace-free remainder. -/
def UrlShape (m : List Char) : Prop :=
  ∃ scheme chunk, scheme ∈ [chars "http://", chars "https://", chars "www."]
    ∧ m = scheme ++ chunk ∧ chunk ≠ [] ∧ ∀ c ∈ chunk, pyIsSpace c = false

/-- A `URL_PATTERN` match starts at the head of `s`. -/
def UrlAt (s : List Char) : Prop :=
  ∃ scheme c rest, scheme ∈ [chars "http://", chars "https://", chars "www."]
    ∧ s = scheme ++ c :: rest ∧ pyIsSpace c = false

theorem takeWhile_mem_false {p : Char → Bool} {l : List Char} {c : Char}
    (h : c ∈ l.takeWhile p) : p c = true := by
  induction l with
  | nil => simp at h
  | cons x xs ih =>
    rw [List.takeWhile_cons] at h
    by_cases hx : p x = true
    · rw [if_pos hx] at h
      rcases List.mem_cons.mp h with hc | hc
      · subst hc; exact hx
      · exact ih hc
    · rw [if_neg hx] at h
      simp at h

theorem urlAlt_some {scheme s m : List Char} (h : urlAlt scheme s = some m) :
    ∃ chunk post, m = scheme ++ chunk ∧ s = m ++ post ∧ chunk ≠ []
      ∧ ∀ c ∈ chunk, pyIsSpace c = false := by
  unfold urlAlt at h
  split at h
  case isFalse => exact absurd h (by simp)
  case isTrue hpre =>
    split at h
    · exact absurd h (by simp)
    · next hcne =>
      have hm := Option.some.inj h
      refine ⟨(s.drop scheme.length).takeWhile (fun c => !pyIsSpace c),
        (s.drop scheme.length).dropWhile (fun c => !pyIsSpace c), hm.symm, ?_, hcne, ?_⟩
      · rw [← hm]
        have hs := startsWithCh_eq_append hpre
        conv_lhs => rw [hs]
        rw [List.append_assoc]
        congr 1
        exact (List.takeWhile_append_dropWhile _ _).symm
      · intro c hc
        have := takeWhile_mem_false hc
        simpa using this

theorem urlAlt_of_head {scheme rest : List Char} {c : Char}
    (hcsp : pyIsSpace c = false) :
    urlAlt scheme (scheme ++ c :: rest) ≠ none := by
  intro h
  unfold urlAlt at h
  rw [if_pos (startsWithCh_of_append scheme (c :: rest))] at h
  rw [List.drop_left] at h
  simp [hcsp] at h

/-- The scheme prefixes are mutually exclusive at a given position. -/
theorem https_http_excl {s X : List Char} (h : s = chars "https://" ++ X) :
    startsWithCh (chars "http://") s = false := by
  subst h
  rfl

theorem http_https_excl {s X : List Char} (h : s = chars "http://" ++ X) :
    startsWithCh (chars "https://") s = false := by
  subst h
  rfl

theorem www_https_excl {s X : List Char} (h : s = chars "www." ++ X) :
    startsWithCh (chars "https://") s = false := by
  subst h
  rfl

theorem www_http_excl {s X : List Char} (h : s = chars "www." ++ X) :
    startsWithCh (chars "http://") s = false := by
  subst h
  rfl

theorem urlAlt_none_of_not_pre {scheme s : List Char}
    (h : startsWithCh scheme s = false) : urlAlt scheme s = none := by
  unfold urlAlt
  rw [h]
  simp

/-- A semantic URL match at the head makes `urlStartAt` succeed. -/
theorem urlStartAt_of_UrlAt {s : List Char} (h : UrlAt s) :
    urlStartAt s ≠ none := by
  obtain ⟨scheme, c, rest, hmem, hs, hcsp⟩ := h
  intro hnone
  unfold urlStartAt at hnone
  simp only [List.mem_cons, List.not_mem_nil, or_false] at hmem
  rcases hmem with hsc | hsc | hsc
  · -- scheme = http://
    subst hsc
    rw [urlAlt_none_of_not_pre (http_https_excl hs)] at hnone
    subst hs
    cases ha : urlAlt (chars "http://") (chars "http://" ++ c :: rest) with
    | none => exact urlAlt_of_head hcsp ha
    | some m => rw [ha] at hnone; simp at hnone
  · -- scheme = https://
    subst hsc
    subst hs
    cases ha : urlAlt (chars "https://") (chars "https://" ++ c :: rest) with
    | none => exact urlAlt_of_head hcsp ha
    | some m => rw [ha] at hnone; simp at hnone
  · -- scheme = www.
    subst hsc
    rw [urlAlt_none_of_not_pre (www_https_excl hs)] at hnone
    rw [urlAlt_none_of_not_pre (www_http_excl hs)] at hnone
    subst hs
    exact urlAlt_of_head hcsp hnone

/-- Soundness of `urlStartAt`. -/
theorem urlStartAt_some {s m : List Char} (h : urlStartAt s = some m) :
    ∃ post, s = m ++ post ∧ UrlShape m := by
  unfold urlStartAt at h
  cases h1 : urlAlt (chars "https://") s with
  | some m1 =>
    rw [h1] at h
    have hm := Option.some.inj h
    subst hm
    obtain ⟨chunk, post, hmm, hsp, hcne, hcws⟩ := urlAlt_some h1
    exact ⟨post, hsp, chars "https://", chunk, by simp, hmm, hcne, hcws⟩
  | none =>
    rw [h1] at h
    cases h2 : urlAlt (chars "http://") s with
    | some m2 =>
      rw [h2] at h
      have hm := Option.some.inj h
      subst hm
      obtain ⟨chunk, post, hmm, hsp, hcne, hcws⟩ := urlAlt_some h2
      exact ⟨post, hsp, chars "http://", chunk, by simp, hmm, hcne, hcws⟩
    | none =>
      rw [h2] at h
      obtain ⟨chunk, post, hmm, hsp, hcne, hcws⟩ := urlAlt_some h
      exact ⟨post, hsp, chars "www.", chunk, by simp, hmm, hcne, hcws⟩

/-- Soundness of `urlSearch`: a genuine URL-shaped occurrence. -/
theorem urlSearch_eq {text pre m post : List Char}
    (h : urlSearch text = some (pre, m, post)) :
    text = pre ++ m ++ post ∧ UrlShape m := by
  induction text generalizing pre with
  | nil => simp [urlSearch] at h
  | cons c rest ih =>
    simp only [urlSearch] at h
    cases h0 : urlStartAt (c :: rest) with
    | some m' =>
      rw [h0] at h
      have h3 : (([] : List Char), m', (c :: rest).drop m'.length)
          = (pre, m, post) := Option.some.inj h
      cases h3
      obtain ⟨post', heq, hshape⟩ := urlStartAt_some h0
      refine ⟨?_, hshape⟩
      rw [List.nil_append]
      conv_lhs => rw [heq]
      congr 1
      rw [heq]
      rw [List.drop_left]
    | none =>
      rw [h0] at h
      cases hrec : urlSearch rest with
      | none => rw [hrec] at h; simp at h
      | some rr =>
        obtain ⟨pre', m', post'⟩ := rr
        rw [hrec] at h
        have h3 := Option.some.inj h
        cases h3
        obtain ⟨he, hshape⟩ := ih hrec
        exact ⟨by simpa using he, hshape⟩

/-- Completeness: when `urlSearch` fails, no URL match starts anywhere. -/
theorem urlSearch_none {text : List Char} (h : urlSearch text = none) :
    ∀ b s, text = b ++ s → ¬ UrlAt s := by
  induction text with
  | nil =>
    intro b s hx hat
    obtain ⟨scheme, c, rest, hmem, hs, _⟩ := hat
    have hsnil : s = [] := by
      cases b with
      | nil => simpa using hx.symm
      | cons _ _ => simp at hx
    rw [hsnil] at hs
    have := congrArg List.length hs
    simp only [List.mem_cons, List.not_mem_nil, or_false] at hmem
    rcases hmem with h1 | h1 | h1 <;> subst h1 <;> simp [chars] at this
  | cons c rest ih =>
    intro b s hx hat
    simp only [urlSearch] at h
    cases h0 : urlStartAt (c :: rest) with
    | some m' => rw [h0] at h; simp at h
    | none =>
      rw [h0] at h
      have hrec : urlSearch rest = none := Option.map_eq_none'.mp h
      cases b with
      | nil =>
        simp only [List.nil_append] at hx
        subst hx
        exact urlStartAt_of_UrlAt hat h0
      | cons cb b' =>
        have hx' : rest = b' ++ s := by
          simpa using congrArg List.tail hx
        exact ih hrec b' s hx' hat

/-- Leftmost-ness of `urlSearch`. -/
theorem urlSearch_leftmost {text pre m post : List Char}
    (h : urlSearch text = some (pre, m, post)) :
    ∀ b s, text = b ++ s → b.length < pre.length → ¬ UrlAt s := by
  induction text generalizing pre with
  | nil => simp [urlSearch] at h
  | cons c rest ih =>
    intro b s hx hlt hat
    simp only [urlSearch] at h
    cases h0 : urlStartAt (c :: rest) with
    | some m' =>
      rw [h0] at h
      have h3 : (([] : List Char), m', (c :: rest).drop m'.length)
          = (pre, m, post) := Option.some.inj h
      cases h3
      simp at hlt
    | none =>
      rw [h0] at h
      cases hrec : urlSearch rest with
      | none => rw [hrec] at h; simp at h
      | some rr =>
        obtain ⟨pre', m', post'⟩ := rr
        rw [hrec] at h
        have h3 := Option.some.inj h
        cases h3
        cases b with
        | nil =>
          simp only [List.nil_append] at hx
          subst hx
          exact urlStartAt_of_UrlAt hat h0
        | cons cb b' =>
          have hx' : rest = b' ++ s := by
            simpa using congrArg List.tail hx
          have hlt' : b'.length < pre'.length := by
            simpa using hlt
          exact ih hrec b' s hx' hlt' hat

/-- Character class `[a-zA-Z0-9._%+-]` of `EMAIL_PATTERN` (line 41). -/
def isLocalChar (c : Char) : Bool :=
  c.isAlphanum || c = '.' || c = '_' || c = '%' || c = '+' || c = '-'

/-- Character class `[a-zA-Z0-9.-]` of `EMAIL_PATTERN` (line 41). -/
def isDomainChar (c : Char) : Bool := c.isAlphanum || c = '.' || c = '-'

/-- Greedy-with-backtracking match of `[a-zA-Z0-9.-]+\.[a-zA-Z]{2,}` at the
start of `t`: the `X+` part backtracks from the longest domain-character run,
so the largest split point `k` with a dot followed by at least two letters
wins; the trailing `[a-zA-Z]{2,}` is greedy.  Returns `(matched, post)`. -/
def dotSplitK (run : List Char) : Option Nat :=
  (List.range run.length).reverse.find? (fun k =>
    decide (1 ≤ k) && decide (run.getD k ' ' = '.')
      && (run.getD (k+1) ' ').isAlpha && (run.getD (k+2) ' ').isAlpha)

def domainMatch (t : List Char) : Option (List Char × List Char) :=
  match dotSplitK (t.takeWhile isDomainChar) with
  | some k =>
    some ((t.takeWhile isDomainChar).take k
        ++ '.' :: ((t.takeWhile isDomainChar).drop (k+1)).takeWhile Char.isAlpha,
      t.drop (k + 1
        + (((t.takeWhile isDomainChar).drop (k+1)).takeWhile Char.isAlpha).length))
  | none => none

/-- Match of `EMAIL_PATTERN` =
`[a-zA-Z0-9._%+-]+@[a-zA-Z0-9.-]+\.[a-zA-Z]{2,}` (line 41) at the start of
`s` (the caller guarantees a local-character head): the greedy local run must
be followed by `@` (the run cannot backtrack, since `@` is not a local
character), then the domain part.  Returns `(matched, post)`. -/
def emailStartAt (s : List Char) : Option (List Char × List Char) :=
  match s.drop (s.takeWhile isLocalChar).length with
  | c0 :: t2 =>
    if c0 = '@' then
      match domainMatch t2 with
      | some (dom, post) => some (s.takeWhile isLocalChar ++ '@' :: dom, post)
      | none => none
    else none
  | [] => none

/-- Leftmost `EMAIL_PATTERN` match: `(pre, matched, post)`. -/
def emailSearch : List Char → Option (List Char × List Char × List Char)
  | [] => none
  | c :: rest =>
    if isLocalChar c then
      match emailStartAt (c :: rest) with
      | some (m, post) => some ([], m, post)
      | none => (emailSearch rest).map (fun r => (c :: r.1, r.2.1, r.2.2))
    else (emailSearch rest).map (fun r => (c :: r.1, r.2.1, r.2.2))

/-- The shape of an `EMAIL_PATTERN` match. -/
def EmailShape (m : List Char) : Prop :=
  ∃ lcl x arun, m = lcl ++ '@' :: (x ++ '.' :: arun)
    ∧ lcl ≠ [] ∧ (∀ c ∈ lcl, isLocalChar c = true)
    ∧ x ≠ [] ∧ (∀ c ∈ x, isDomainChar c = true)
    ∧ 2 ≤ arun.length ∧ (∀ c ∈ arun, c.isAlpha = true)

/-- An `EMAIL_PATTERN` match starts at the head of `s` (with the two-letter
minimal TLD witness). -/
def EmailAt (s : List Char) : Prop :=
  ∃ lcl x a2 rest, s = lcl ++ '@' :: (x ++ '.' :: (a2 ++ rest))
    ∧ lcl ≠ [] ∧ (∀ c ∈ lcl, isLocalChar c = true)
    ∧ x ≠ [] ∧ (∀ c ∈ x, isDomainChar c = true)
    ∧ a2.length = 2 ∧ (∀ c ∈ a2, c.isAlpha = true)

theorem drop_takeWhile_length (p : Char → Bool) (l : List Char) :
    l.drop (l.takeWhile p).length = l.dropWhile p := by
  have h := List.takeWhile_append_dropWhile p l
  calc l.drop (l.takeWhile p).length
      = (l.takeWhile p ++ l.dropWhile p).drop (l.takeWhile p).length := by rw [h]
    _ = l.dropWhile p := List.drop_left _ _

theorem takeWhile_append_all {p : Char → Bool} {w l : List Char}
    (hw : ∀ c ∈ w, p c = true) :
    List.takeWhile p (w ++ l) = w ++ List.takeWhile p l := by
  induction w with
  | nil => simp
  | cons c cs ih =>
    have hc : p c = true := hw c (by simp)
    simp only [List.cons_append, List.takeWhile_cons, hc, if_true]
    rw [ih (fun x hx => hw x (by simp [hx]))]

/-- Soundness of `domainMatch`. -/
theorem domainMatch_eq {t dom post : List Char}
    (h : domainMatch t = some (dom, post)) :
    t = dom ++ post
      ∧ ∃ x arun, dom = x ++ '.' :: arun ∧ x ≠ []
        ∧ (∀ c ∈ x, isDomainChar c = true)
        ∧ 2 ≤ arun.length ∧ (∀ c ∈ arun, c.isAlpha = true) := by
  unfold domainMatch at h
  set run := t.takeWhile isDomainChar with hrun
  cases hk : dotSplitK run with
  | none => rw [hk] at h; simp at h
  | some k =>
    rw [hk] at h
    have hpred := List.find?_some (hk ▸ rfl : dotSplitK run = some k)
    unfold dotSplitK at hk
    have hpred := List.find?_some hk
    simp only [Bool.and_eq_true, decide_eq_true_eq] at hpred
    obtain ⟨⟨⟨hk1, hkdot⟩, ha1⟩, ha2⟩ := hpred
    set arun := (run.drop (k+1)).takeWhile Char.isAlpha with harun
    have h3 := Option.some.inj h
    cases h3
    -- bounds
    have hklt : k < run.length := by
      by_contra hge
      rw [List.getD_eq_default run ' ' (by omega)] at hkdot
      exact absurd hkdot (by decide)
    have hk1lt : k + 1 < run.length := by
      by_contra hge
      rw [List.getD_eq_default run ' ' (by omega)] at ha1
      exact absurd ha1 (by decide)
    have hk2lt : k + 2 < run.length := by
      by_contra hge
      rw [List.getD_eq_default run ' ' (by omega)] at ha2
      exact absurd ha2 (by decide)
    -- arun keeps at least the two letters
    have hdrop1 : run.drop (k+1) = run[k+1] :: run.drop (k+2) :=
      List.drop_eq_getElem_cons hk1lt
    have hdrop2 : run.drop (k+2) = run[k+2] :: run.drop (k+3) :=
      List.drop_eq_getElem_cons hk2lt
    have hg1 : run[k+1].isAlpha = true := by
      rw [← List.getD_eq_getElem run ' ' hk1lt]
      exact ha1
    have hg2 : run[k+2].isAlpha = true := by
      rw [← List.getD_eq_getElem run ' ' hk2lt]
      exact ha2
    have harunlen : 2 ≤ arun.length := by
      rw [harun, hdrop1, hdrop2]
      rw [List.takeWhile_cons, if_pos hg1, List.takeWhile_cons, if_pos hg2]
      simp
    have harunle : arun.length ≤ run.length - (k+1) := by
      have hsum := congrArg List.length
        (List.takeWhile_append_dropWhile Char.isAlpha (run.drop (k+1)))
      simp only [List.length_append, List.length_drop] at hsum
      rw [harun]
      omega
    -- the matched text is the prefix of t of length k + 1 + arun.length
    have hrunpre : t = run ++ t.dropWhile isDomainChar := by
      rw [hrun]
      exact (List.takeWhile_append_dropWhile _ _).symm
    have hnle : k + 1 + arun.length ≤ run.length := by omega
    have htake : t.take (k + 1 + arun.length) = run.take k ++ '.' :: arun := by
      have ht1 : t.take (k + 1 + arun.length) = run.take (k + 1 + arun.length) := by
        conv_lhs => rw [hrunpre]
        rw [List.take_append_eq_append_take]
        have hz : k + 1 + arun.length - run.length = 0 := by omega
        rw [hz]
        simp
      rw [ht1]
      have ht2 : run.take (k + 1 + arun.length)
          = run.take (k+1) ++ (run.drop (k+1)).take arun.length :=
        List.take_add run (k+1) arun.length
      rw [ht2]
      have ht3 : run.take (k+1) = run.take k ++ ['.'] := by
        rw [List.take_succ]
        congr 1
        have : run[k]? = some run[k] := List.getElem?_eq_getElem hklt
        rw [this]
        have : run[k] = '.' := by
          rw [← List.getD_eq_getElem run ' ' hklt]
          exact hkdot
        rw [this]
        rfl
      have ht4 : (run.drop (k+1)).take arun.length = arun := by
        have hd := List.takeWhile_append_dropWhile Char.isAlpha (run.drop (k+1))
        calc (run.drop (k+1)).take arun.length
            = (arun ++ (run.drop (k+1)).dropWhile Char.isAlpha).take arun.length := by
              rw [harun, hd]
          _ = arun := List.take_left _ _
      rw [ht3, ht4]
      simp
    constructor
    · calc t = t.take (k + 1 + arun.length) ++ t.drop (k + 1 + arun.length) :=
          (List.take_append_drop _ _).symm
        _ = (run.take k ++ '.' :: arun) ++ t.drop (k + 1 + arun.length) := by
          rw [htake]
    · refine ⟨run.take k, arun, rfl, ?_, ?_, harunlen, ?_⟩
      · have : (run.take k).length = k := by
          rw [List.length_take]
          omega
        intro hnil
        rw [hnil] at this
        simp at this
        omega
      · intro c hc
        have hcr : c ∈ run := List.mem_of_mem_take hc
        rw [hrun] at hcr
        exact takeWhile_mem_false hcr
      · intro c hc
        exact takeWhile_mem_false (harun ▸ hc)

/-- Completeness of `domainMatch` for a semantic domain occurrence. -/
theorem domainMatch_of_shape {t x a2 rest : List Char}
    (hx : x ≠ []) (hxd : ∀ c ∈ x, isDomainChar c = true)
    (ha2 : a2.length = 2) (ha2a : ∀ c ∈ a2, c.isAlpha = true)
    (ht : t = x ++ '.' :: (a2 ++ rest)) :
    domainMatch t ≠ none := by
  intro h
  unfold domainMatch at h
  set run := t.takeWhile isDomainChar with hrun
  cases hk : dotSplitK run with
  | some k => rw [hk] at h; simp at h
  | none =>
    unfold dotSplitK at hk
    -- position |x| satisfies the predicate, contradiction
    obtain ⟨c1, c2, ha2eq⟩ := List.length_eq_two.mp ha2
    subst ha2eq
    have hc1a : c1.isAlpha = true := ha2a c1 (by simp)
    have hc2a : c2.isAlpha = true := ha2a c2 (by simp)
    have hall : ∀ c ∈ x ++ '.' :: [c1, c2], isDomainChar c = true := by
      intro c hc
      rcases List.mem_append.mp hc with hc | hc
      · exact hxd c hc
      · rcases List.mem_cons.mp hc with hc | hc
        · subst hc; decide
        · have hca := ha2a c hc
          unfold isDomainChar Char.isAlphanum
          simp [hca]
    have htw : run = (x ++ '.' :: [c1, c2]) ++ rest.takeWhile isDomainChar := by
      rw [hrun, ht]
      have hassoc : x ++ '.' :: ([c1, c2] ++ rest) = (x ++ '.' :: [c1, c2]) ++ rest := by
        simp
      rw [hassoc]
      exact takeWhile_append_all hall
    have htw2 : run = x ++ '.' :: c1 :: c2 :: rest.takeWhile isDomainChar := by
      rw [htw]
      simp
    have hlen : x.length + 3 ≤ run.length := by
      rw [htw2]
      simp only [List.length_append, List.length_cons]
      omega
    have hx1 : 1 ≤ x.length := by
      cases x with
      | nil => exact absurd rfl hx
      | cons _ _ => simp
    have hd0 : run.getD x.length ' ' = '.' := by
      rw [htw2, List.getD_append_right _ _ _ _ (le_refl x.length)]
      simp
    have hd1 : run.getD (x.length + 1) ' ' = c1 := by
      rw [htw2, List.getD_append_right _ _ _ _ (by omega)]
      have he : x.length + 1 - x.length = 1 := by omega
      rw [he]
      rfl
    have hd2 : run.getD (x.length + 2) ' ' = c2 := by
      rw [htw2, List.getD_append_right _ _ _ _ (by omega)]
      have he : x.length + 2 - x.length = 2 := by omega
      rw [he]
      rfl
    have hmem : x.length ∈ (List.range run.length).reverse := by
      rw [List.mem_reverse, List.mem_range]
      omega
    have hnot := List.find?_eq_none.mp hk x.length hmem
    apply hnot
    rw [hd0, hd1, hd2]
    simp [hx1, hc1a, hc2a]

/-- **C5** (code-bug evidence): bullet-item sentence-ending normalization is
not applied per item.  In paragraph-list mode it is applied to every plain
string child: the item `Use **Python**` renders as `• Use.Python` — a period
is inserted mid-item after `Use` and the rendered item does not end in a
period.  In native mode the fix targets the last element of
`paragraph.runs`, so an item ending in a hyperlink (`see [docs](http://x)`)
renders as `see.docs`, again with no terminal period. -/
theorem C5_bullet_normalization_bug :
    renderText (addBulletListParagraph (chars "•")
        [[LiChild.str (chars "Use "), LiChild.strong (chars "Python")]])
      = chars "• Use.Python"
    ∧ lastCharIn (renderText (addBulletListParagraph (chars "•")
        [[LiChild.str (chars "Use "), LiChild.strong (chars "Python")]]))
        sentencePunct = false
    ∧ renderText ((addBulletListNative
        [[LiChild.str (chars "see "),
          LiChild.a (chars "docs") (chars "http://x")]]).flatten)
      = chars "see.docs"
    ∧ lastCharIn (chars "see.docs") sentencePunct = false := by
  refine ⟨by decide, by decide, by decide, by decide⟩

/-- **C7, counterexample**: `_has_hr_before_element` skips *every* text node
(and `<br>` elements), not only whitespace-only text nodes: with siblings
`[text "xyz", hr]` the code inserts a page break although the claim (skip only
whitespace-only text nodes) says the non-blank text node blocks it. -/
theorem C7_counterexample :
    has_hr_before_element
        [BsNode.textNode (chars "xyz"), BsNode.elem (chars "hr")] = true
    ∧ hrBeforeSkippingWsOnly
        [BsNode.textNode (chars "xyz"), BsNode.elem (chars "hr")] = false
    ∧ prepare_section_found [[⟨chars "Intro", 0⟩]]
        [BsNode.textNode (chars "xyz"), BsNode.elem (chars "hr")]
        (chars "EDUCATION")
      = [[⟨chars "Intro", 1⟩], [⟨chars "EDUCATION", 0⟩]] := by
  refine ⟨by decide, by decide, by decide⟩

/-- **C7, amended**: before emitting a section heading, the preparer checks
whether the nearest previous sibling — skipping **all text nodes and `<br>`
elements** — is an `hr`.  If so, exactly one page break is inserted into the
last existing paragraph (only that paragraph changes; a fresh one is created
when the document is empty); otherwise the document is unchanged except for
the appended heading. -/
theorem C7_prepare_section (doc : List (List BRun)) (prevs : List BsNode)
    (heading : List Char) :
    (has_hr_before_element prevs = false →
      prepare_section_found doc prevs heading = doc ++ [[⟨heading, 0⟩]])
    ∧ (has_hr_before_element prevs = true →
      pageBreakCount (prepare_section_found doc prevs heading)
          = pageBreakCount doc + 1
        ∧ (doc ≠ [] →
          (prepare_section_found doc prevs heading).length = doc.length + 1
          ∧ (prepare_section_found doc prevs heading).take (doc.length - 1)
              = doc.take (doc.length - 1))
        ∧ (doc = [] → prepare_section_found doc prevs heading
              = [[⟨[], 1⟩], [⟨heading, 0⟩]]))
    ∧ (prepare_section_found doc prevs heading).getLast? = some [⟨heading, 0⟩] := by
  refine ⟨?_, ?_, ?_⟩
  · intro h
    unfold prepare_section_found
    rw [h]
    simp
  · intro h
    unfold prepare_section_found
    rw [h]
    simp only [if_true]
    refine ⟨?_, ?_, ?_⟩
    · rw [pageBreakCount_append, insertPageBreak_count]
      simp [pageBreakCount]
    · intro hne
      constructor
      · rw [List.length_append, insertPageBreak_length hne]
        simp
      · have hle : doc.length - 1 ≤ (insertPageBreak doc).length := by
          rw [insertPageBreak_length hne]
          omega
        rw [List.take_append_eq_append_take]
        have hz : doc.length - 1 - (insertPageBreak doc).length = 0 := by omega
        rw [hz]
        simp only [List.take_zero, List.append_nil]
        exact insertPageBreak_take hne
    · intro he
      subst he
      rfl
  · unfold prepare_section_found
    exact List.getLast?_concat _

/-- Witness for C7 at a one-paragraph document with an `hr` sibling. -/
theorem C7_witness :
    pageBreakCount (prepare_section_found [[⟨chars "x", 0⟩]]
        [BsNode.elem (chars "hr")] (chars "EDUCATION"))
      = pageBreakCount [[⟨chars "x", 0⟩]] + 1 :=
  ((C7_prepare_section [[⟨chars "x", 0⟩]] [BsNode.elem (chars "hr")]
    (chars "EDUCATION")).2.1 (by decide)).1

/-- **C10**: sentence-ending normalization first strips trailing whitespace, so
a string already ending in terminal punctuation followed by trailing whitespace
comes back right-trimmed rather than literally unchanged; the returned string
never ends in whitespace; and the empty string is returned as-is, with no
period appended. -/
theorem C10_ensure_sentence_ending_normalization (text : List Char) :
    (text = [] → ensure_sentence_ending text = [])
    ∧ (∀ c, (ensure_sentence_ending text).getLast? = some c → pyIsSpace c = false)
    ∧ (∀ c, (pyRstrip text).getLast? = some c → c ∈ sentencePunct →
        ensure_sentence_ending text = pyRstrip text) := by
  refine ⟨fun h => by simp [ensure_sentence_ending, h], ?_, ?_⟩
  · intro c hc
    unfold ensure_sentence_ending at hc
    by_cases ht : text = []
    · rw [if_pos ht] at hc
      subst ht
      simp at hc
    · rw [if_neg ht] at hc
      by_cases hin : lastCharIn (pyRstrip text) sentencePunct = true
      · rw [if_pos hin] at hc
        exact pyRstrip_getLast?_not_space hc
      · rw [if_neg hin, List.getLast?_concat] at hc
        obtain rfl : ('.' : Char) = c := Option.some.inj hc
        decide
  · intro c hl hcp
    have ht : text ≠ [] := by
      intro h
      subst h
      simp [pyRstrip, pyLstrip] at hl
    unfold ensure_sentence_ending
    rw [if_neg ht, if_pos (lastCharIn_of hl hcp)]

/-- Witness for C10 at the concrete input `"Done. "`. -/
theorem C10_witness :
    (pyRstrip (chars "Done. ")).getLast? = some '.'
    ∧ ensure_sentence_ending (chars "Done. ") = pyRstrip (chars "Done. ") := by
  refine ⟨by decide, ?_⟩
  exact (C10_ensure_sentence_ending_normalization (chars "Done. ")).2.2 '.'
    (by decide) (by decide)

/-- **C4, counterexample**: the fallback is not a *prefix* match. For the h5
heading text `"best summary"` no descriptor's first keyword is a prefix of the
normalized text, yet the lookup still returns the SUMMARY descriptor, because
the code tests substring containment (`keyword in text_lower`), not a prefix. -/
theorem C4_counterexample :
    find_by_tag_and_text (chars "h5") (chars "best summary") = some SUMMARY
    ∧ (jobSubsectionMembers.filter
          (fun s => s.markdown_heading_level = chars "h5")).all
        (fun s => !startsWithCh (firstWord s.markdown_text_lower)
          (pyStrip (pyLower (chars "best summary")))) = true := by
  constructor
  · decide
  · decide

/-- **C4, amended**: lookup first tries an exact match of the lowercased,
whitespace-stripped text against a descriptor's expected text at that tag
level; only if no exact match exists, and only for h5/h6, it falls back to the
first same-level descriptor whose first keyword occurs as a **substring**
(not necessarily a prefix) of the normalized text; the result is deterministic
and invariant under surrounding whitespace. -/
theorem C4_subsection_lookup (tag text : List Char) :
    (∀ s, jobSubsectionMembers.find?
        (exactSubsectionMatch tag (pyStrip (pyLower text))) = some s →
      find_by_tag_and_text tag text = some s)
    ∧ (jobSubsectionMembers.find?
        (exactSubsectionMatch tag (pyStrip (pyLower text))) = none →
      (tag = chars "h5" ∨ tag = chars "h6") →
      find_by_tag_and_text tag text =
        (jobSubsectionMembers.filter
            (fun s => s.markdown_heading_level = tag)).find?
          (fun s => containsSub (firstWord s.markdown_text_lower)
            (pyStrip (pyLower text))))
    ∧ (∀ w1 w2, (∀ c ∈ w1, pyIsSpace c = true) → (∀ c ∈ w2, pyIsSpace c = true) →
      find_by_tag_and_text tag (w1 ++ text ++ w2) = find_by_tag_and_text tag text) := by
  refine ⟨?_, ?_, ?_⟩
  · intro s hs
    simp only [find_by_tag_and_text]
    rw [hs]
  · intro hn htag
    simp only [find_by_tag_and_text]
    rw [hn, if_pos htag]
  · intro w1 w2 h1 h2
    simp only [find_by_tag_and_text]
    rw [strip_lower_pad h1 h2]

/-- Witness for C4 at tag `h5`, text `"summary"` with a one-space pad. -/
theorem C4_witness :
    find_by_tag_and_text (chars "h5") (chars " " ++ chars "summary" ++ chars " ")
      = find_by_tag_and_text (chars "h5") (chars "summary")
    ∧ find_by_tag_and_text (chars "h5") (chars "summary") = some SUMMARY := by
  constructor
  · exact (C4_subsection_lookup (chars "h5") (chars "summary")).2.2
      (chars " ") (chars " ") (by decide) (by decide)
  · exact (C4_subsection_lookup (chars "h5") (chars "summary")).1 SUMMARY (by decide)

/-- **C6, counterexample**: the round-trip fails as universally stated.  With
the default top-skills separators (input `" • "`, output `" | "`), the skills
string `"a | b • c"` parses to the skills `["a | b", "c"]`; joining with
`" | "` and re-splitting on it yields `["a", "b", "c"]`, not the original
skill set. -/
theorem C6_counterexample :
    ((pySplit (chars " | ")
        (formatSkillsText (chars " | ")
          (parseSkills (chars " • ") (chars "a | b • c")))).map
      pyStrip).filter (fun s => !s.isEmpty)
      ≠ parseSkills (chars " • ") (chars "a | b • c") := by
  decide

/-- **C6, amended**: the split-join-resplit round-trip (up to whitespace
trimming and dropping of empty parts) recovers the original skill list
whenever the output separator does not occur inside any parsed skill nor
straddles a skill/separator boundary (`safeChunk`). -/
theorem C6_skills_roundtrip (input_separator output_separator text : List Char)
    (hsep : output_separator ≠ [])
    (hsafe : (parseSkills input_separator text).all
      (safeChunk output_separator) = true) :
    ((pySplit output_separator
        (formatSkillsText output_separator
          (parseSkills input_separator text))).map
      pyStrip).filter (fun s => !s.isEmpty)
      = parseSkills input_separator text := by
  have hsafe' : ∀ x ∈ parseSkills input_separator text,
      safeChunk output_separator x = true := by
    intro x hx
    exact List.all_eq_true.mp hsafe x hx
  by_cases hne : parseSkills input_separator text = []
  · rw [hne]
    unfold formatSkillsText pyJoin
    rw [pySplit_none hsep (splitFirst_nil_of_ne hsep)]
    simp [pyStrip, pyRstrip, pyLstrip]
  · unfold formatSkillsText
    rw [pySplit_pyJoin hsep _ hne hsafe']
    have hmap : (parseSkills input_separator text).map pyStrip
        = parseSkills input_separator text :=
      map_id_on (fun x hx => (parseSkills_mem hx).1)
    rw [hmap]
    refine List.filter_eq_self.mpr (fun x hx => ?_)
    simpa using (parseSkills_mem hx).2

/-- Witness for C6 with the default separators on `"Python • Go"`. -/
theorem C6_witness :
    (parseSkills (chars " • ") (chars "Python • Go")).all
      (safeChunk (chars " | ")) = true
    ∧ ((pySplit (chars " | ")
        (formatSkillsText (chars " | ")
          (parseSkills (chars " • ") (chars "Python • Go")))).map
      pyStrip).filter (fun s => !s.isEmpty)
      = parseSkills (chars " • ") (chars "Python • Go") := by
  refine ⟨by decide, ?_⟩
  exact C6_skills_roundtrip (chars " • ") (chars " | ") (chars "Python • Go")
    (by decide) (by decide)

/-- **C1**: in the standard assembly path the sections emitted into the output
document appear in exactly the configured declaration order — the configured
keys, filtered to the registered (known-key) sections present in the markdown,
in configuration order — regardless of the order in which the corresponding h2
headings appear in the source tree (formally: invariant under any permutation
of the tree's h2 sequence). -/
theorem C1_section_order (cfgs : List SectionCfg) (md1 md2 : MdTree)
    (hperm : md1.Perm md2) :
    emittedSectionKeys (create_ats_resume_std cfgs md1)
      = (cfgs.filter (fun cfg => knownKey cfg && sectionPresent md1 cfg)).map
          SectionCfg.key
    ∧ emittedSectionKeys (create_ats_resume_std cfgs md1)
      = emittedSectionKeys (create_ats_resume_std cfgs md2) := by
  refine ⟨emittedSectionKeys_eq cfgs md1, ?_⟩
  rw [emittedSectionKeys_eq, emittedSectionKeys_eq]
  congr 1
  apply List.filter_congr
  intro cfg _
  rw [sectionPresent_perm hperm]

/-- Witness for C1: two configured sections, markdown h2s in the opposite
order; the output order follows the configuration. -/
theorem C1_witness :
    emittedSectionKeys (create_ats_resume_std
        [⟨chars "education", chars "education", chars "EDUCATION"⟩,
          ⟨chars "skills", chars "top skills", chars "CORE SKILLS"⟩]
        [chars "Top Skills", chars "Education"])
      = [chars "education", chars "skills"]
    ∧ emittedSectionKeys (create_ats_resume_std
        [⟨chars "education", chars "education", chars "EDUCATION"⟩,
          ⟨chars "skills", chars "top skills", chars "CORE SKILLS"⟩]
        [chars "Top Skills", chars "Education"])
      = emittedSectionKeys (create_ats_resume_std
        [⟨chars "education", chars "education", chars "EDUCATION"⟩,
          ⟨chars "skills", chars "top skills", chars "CORE SKILLS"⟩]
        [chars "Education", chars "Top Skills"]) := by
  have h := C1_section_order
    [⟨chars "education", chars "education", chars "EDUCATION"⟩,
      ⟨chars "skills", chars "top skills", chars "CORE SKILLS"⟩]
    [chars "Top Skills", chars "Education"]
    [chars "Education", chars "Top Skills"]
    (by decide)
  exact ⟨h.1.trans (by decide), h.2⟩

/-- **C8**: in the processor loop, an exception from a non-required section is
caught and the remaining sections run in order (the run equals the run without
that processor); an exception from a required processor (the header) makes the
whole run fail with that error, so no document is saved. -/
theorem C8_section_error_handling {E : Type}
    (xs ys : List (Bool × Except E (List OutEl))) (e : E) :
    runProcessors (xs ++ (false, Except.error e) :: ys)
      = runProcessors (xs ++ ys)
    ∧ ((∀ p ∈ xs, p.1 = true → exceptIsError p.2 = false) →
      runProcessors (xs ++ (true, Except.error e) :: ys) = Except.error e) := by
  constructor
  · induction xs with
    | nil => rfl
    | cons p rest ih =>
      obtain ⟨b, r⟩ := p
      cases r with
      | ok els =>
        show (runProcessors (rest ++ (false, Except.error e) :: ys)).map _
            = (runProcessors (rest ++ ys)).map _
        rw [ih]
      | error e' =>
        cases b with
        | true => rfl
        | false =>
          show runProcessors (rest ++ (false, Except.error e) :: ys)
              = runProcessors (rest ++ ys)
          exact ih
  · induction xs with
    | nil => intro _; rfl
    | cons p rest ih =>
      intro hreq
      obtain ⟨b, r⟩ := p
      cases r with
      | ok els =>
        have hrec := ih (fun q hq hb => hreq q (by simp [hq]) hb)
        show (runProcessors (rest ++ (true, Except.error e) :: ys)).map _
            = Except.error e
        rw [hrec]
        rfl
      | error e' =>
        cases b with
        | true =>
          exfalso
          have := hreq (true, Except.error e') (by simp) rfl
          simp [exceptIsError] at this
        | false =>
          show runProcessors (rest ++ (true, Except.error e) :: ys)
              = Except.error e
          exact ih (fun q hq hb => hreq q (by simp [hq]) hb)

/-- Witness for C8: a failing non-required skills processor is skipped; a
failing required header processor aborts the run. -/
theorem C8_witness :
    runProcessors ([((false : Bool), Except.ok (ε := List Char) [OutEl.headerBlock])]
        ++ (false, Except.error (chars "boom"))
          :: [(false, Except.ok [OutEl.sectionBody (chars "skills")])])
      = runProcessors ([((false : Bool), Except.ok (ε := List Char) [OutEl.headerBlock])]
        ++ [(false, Except.ok [OutEl.sectionBody (chars "skills")])])
    ∧ runProcessors ([((false : Bool), Except.ok (ε := List Char) [OutEl.headerBlock])]
        ++ (true, Except.error (chars "no h1"))
          :: [(false, Except.ok [OutEl.sectionBody (chars "skills")])])
      = Except.error (chars "no h1") := by
  constructor
  · exact (C8_section_error_handling
      [((false : Bool), Except.ok [OutEl.headerBlock])]
      [(false, Except.ok [OutEl.sectionBody (chars "skills")])]
      (chars "boom")).1
  · exact (C8_section_error_handling
      [((false : Bool), Except.ok [OutEl.headerBlock])]
      [(false, Except.ok [OutEl.sectionBody (chars "skills")])]
      (chars "no h1")).2 (by decide)

/-- **C9**: a configured section whose expected h2 heading is absent from the
tree under the case-insensitive match: the locator returns `none`, the
section's processor emits nothing, no section body tagged with its key
appears in the output (configured keys are unique), and the whole run still
completes, producing the saved document. -/
theorem C9_missing_section (cfgs : List SectionCfg) (md : MdTree)
    (cfg : SectionCfg)
    (habs : ∀ t ∈ md, sectionMatches cfg t = false)
    (hkeys : ∀ c ∈ cfgs, c.key = cfg.key → c = cfg) :
    findSectionH2 md cfg = none
    ∧ procRun md (ProcKind.sec cfg) = []
    ∧ OutEl.sectionBody cfg.key ∉ create_ats_resume_std cfgs md
    ∧ runProcessors ((sectionProcessorsFor cfgs).map
        (fun p => (p.1, Except.ok (ε := List Char) (procRun md p.2))))
      = Except.ok (create_ats_resume_std cfgs md) := by
  have hfind : findSectionH2 md cfg = none := by
    unfold findSectionH2
    apply List.find?_eq_none.mpr
    intro t ht
    simp [habs t ht]
  refine ⟨hfind, by simp [procRun, hfind], ?_, runProcessors_ok cfgs md⟩
  intro hmem
  unfold create_ats_resume_std at hmem
  obtain ⟨p, hp, hmem2⟩ := List.mem_flatMap.mp hmem
  obtain ⟨b, k⟩ := p
  cases k with
  | header => simp [procRun] at hmem2
  | sec c =>
    have hc : c ∈ cfgs := by
      unfold sectionProcessorsFor at hp
      obtain ⟨cfg', hcfg', hp2⟩ := List.mem_flatMap.mp hp
      have hcc : c = cfg' := by
        by_cases h1 : pyUpper cfg'.key = chars "ABOUT"
        · rw [if_pos h1] at hp2
          simp at hp2
          exact hp2.2
        · rw [if_neg h1] at hp2
          by_cases h2 : pyUpper cfg'.key ∈ knownSectionKeys
          · rw [if_pos h2] at hp2
            simp at hp2
            exact hp2.2
          · rw [if_neg h2] at hp2
            simp at hp2
      rw [hcc]
      exact hcfg'
    cases hf : findSectionH2 md c with
    | none => simp [procRun, hf] at hmem2
    | some t =>
      simp [procRun, hf] at hmem2
      have hceq : c = cfg := hkeys c hc hmem2.symm
      rw [hceq, hfind] at hf
      exact Option.noConfusion hf

/-- Witness for C9: a configured projects section absent from the tree. -/
theorem C9_witness :
    findSectionH2 [chars "About", chars "Experience"]
        ⟨chars "projects", chars "projects", chars "PROJECTS"⟩ = none
    ∧ OutEl.sectionBody (chars "projects") ∉ create_ats_resume_std
        [⟨chars "about", chars "about", chars "ABOUT"⟩,
          ⟨chars "projects", chars "projects", chars "PROJECTS"⟩]
        [chars "About", chars "Experience"] := by
  have h := C9_missing_section
    [⟨chars "about", chars "about", chars "ABOUT"⟩,
      ⟨chars "projects", chars "projects", chars "PROJECTS"⟩]
    [chars "About", chars "Experience"]
    ⟨chars "projects", chars "projects", chars "PROJECTS"⟩
    (by decide) (by decide)
  exact ⟨h.1, h.2.2.1⟩


theorem takeWhile_local_forced {lcl l : List Char}
    (hl : ∀ c ∈ lcl, isLocalChar c = true) :
    (lcl ++ '@' :: l).takeWhile isLocalChar = lcl := by
  rw [takeWhile_append_all hl]
  rw [List.takeWhile_cons, if_neg (by decide)]
  simp

/-- Soundness of `emailStartAt`. -/
theorem emailStartAt_some {s m post : List Char}
    (h : emailStartAt s = some (m, post)) :
    s = m ++ post
      ∧ ∃ dom, m = s.takeWhile isLocalChar ++ '@' :: dom
        ∧ (∃ x arun, dom = x ++ '.' :: arun ∧ x ≠ []
            ∧ (∀ c ∈ x, isDomainChar c = true)
            ∧ 2 ≤ arun.length ∧ (∀ c ∈ arun, c.isAlpha = true)) := by
  unfold emailStartAt at h
  cases hdw : s.drop (s.takeWhile isLocalChar).length with
  | nil => rw [hdw] at h; simp at h
  | cons c0 t2 =>
    simp only [hdw] at h
    split at h
    · next hc0 =>
      subst hc0
      cases hdm : domainMatch t2 with
      | none => rw [hdm] at h; simp at h
      | some p =>
        obtain ⟨dom, post'⟩ := p
        rw [hdm] at h
        have h3 := Option.some.inj h
        cases h3
        obtain ⟨ht2, x, arun, hdom, hx, hxd, hal, hala⟩ := domainMatch_eq hdm
        have hs : s = s.takeWhile isLocalChar ++ '@' :: t2 := by
          conv_lhs => rw [← List.takeWhile_append_dropWhile isLocalChar s]
          rw [← drop_takeWhile_length isLocalChar s, hdw]
        constructor
        · conv_lhs => rw [hs, ht2]
          simp
        · exact ⟨dom, rfl, x, arun, hdom, hx, hxd, hal, hala⟩
    · exact absurd h (by simp)

/-- A semantic email match at the head makes `emailStartAt` succeed. -/
theorem emailStartAt_of_EmailAt {s : List Char} (h : EmailAt s) :
    emailStartAt s ≠ none := by
  obtain ⟨lcl, x, a2, rest, hs, hlne, hll, hx, hxd, ha2, ha2a⟩ := h
  intro hnone
  unfold emailStartAt at hnone
  have htw : s.takeWhile isLocalChar = lcl := by
    rw [hs]
    exact takeWhile_local_forced hll
  have hdw : s.drop (s.takeWhile isLocalChar).length
      = '@' :: (x ++ '.' :: (a2 ++ rest)) := by
    rw [htw, hs]
    exact List.drop_left lcl _
  simp only [hdw, if_true] at hnone
  cases hdm : domainMatch (x ++ '.' :: (a2 ++ rest)) with
  | none => exact domainMatch_of_shape hx hxd ha2 ha2a rfl hdm
  | some p => rw [hdm] at hnone; simp at hnone

/-- Soundness of `emailSearch`. -/
theorem emailSearch_eq {text pre m post : List Char}
    (h : emailSearch text = some (pre, m, post)) :
    text = pre ++ m ++ post ∧ EmailShape m := by
  induction text generalizing pre with
  | nil => simp [emailSearch] at h
  | cons c rest ih =>
    simp only [emailSearch] at h
    split at h
    · next hloc =>
      cases h0 : emailStartAt (c :: rest) with
      | some p =>
        obtain ⟨m', post'⟩ := p
        rw [h0] at h
        have h3 := Option.some.inj h
        cases h3
        obtain ⟨heq, dom, hm, x, arun, hdom, hxne, hxd, hal, hala⟩ :=
          emailStartAt_some h0
        refine ⟨by simpa using heq, ?_⟩
        refine ⟨(c :: rest).takeWhile isLocalChar, x, arun,
          by rw [hm, hdom], ?_, ?_, hxne, hxd, hal, hala⟩
        · rw [List.takeWhile_cons, if_pos hloc]
          simp
        · intro ch hch
          exact takeWhile_mem_false hch
      | none =>
        rw [h0] at h
        cases hrec : emailSearch rest with
        | none => rw [hrec] at h; simp at h
        | some rr =>
          obtain ⟨pre', m', post'⟩ := rr
          rw [hrec] at h
          have h3 := Option.some.inj h
          cases h3
          obtain ⟨he, hshape⟩ := ih hrec
          exact ⟨by simpa using he, hshape⟩
    · cases hrec : emailSearch rest with
      | none => rw [hrec] at h; simp at h
      | some rr =>
        obtain ⟨pre', m', post'⟩ := rr
        rw [hrec] at h
        have h3 := Option.some.inj h
        cases h3
        obtain ⟨he, hshape⟩ := ih hrec
        exact ⟨by simpa using he, hshape⟩

theorem emailAt_head_local {s : List Char} (h : EmailAt s) :
    ∃ c rest, s = c :: rest ∧ isLocalChar c = true := by
  obtain ⟨lcl, x, a2, rest, hs, hlne, hll, _, _, _, _⟩ := h
  cases lcl with
  | nil => exact absurd rfl hlne
  | cons c0 lcl' =>
    refine ⟨c0, lcl' ++ '@' :: (x ++ '.' :: (a2 ++ rest)), by simpa using hs, ?_⟩
    exact hll c0 (by simp)

/-- Completeness: when `emailSearch` fails, no email match starts anywhere. -/
theorem emailSearch_none {text : List Char} (h : emailSearch text = none) :
    ∀ b s, text = b ++ s → ¬ EmailAt s := by
  induction text with
  | nil =>
    intro b s hx hat
    obtain ⟨c, r, hs, _⟩ := emailAt_head_local hat
    have hsnil : s = [] := by
      cases b with
      | nil => simpa using hx.symm
      | cons _ _ => simp at hx
    rw [hsnil] at hs
    simp at hs
  | cons c rest ih =>
    intro b s hx hat
    simp only [emailSearch] at h
    cases b with
    | nil =>
      simp only [List.nil_append] at hx
      subst hx
      obtain ⟨c0, r0, hs0, hloc0⟩ := emailAt_head_local hat
      have hc0 : c = c0 := by
        have := congrArg List.head? hs0
        simpa using this
      subst hc0
      rw [if_pos hloc0] at h
      cases h0 : emailStartAt (c :: rest) with
      | some p => rw [h0] at h; obtain ⟨m', post'⟩ := p; simp at h
      | none => exact emailStartAt_of_EmailAt hat h0
    | cons cb b' =>
      have hx' : rest = b' ++ s := by
        simpa using congrArg List.tail hx
      have hrec : emailSearch rest = none := by
        split at h
        · cases h0 : emailStartAt (c :: rest) with
          | some p => rw [h0] at h; obtain ⟨m', post'⟩ := p; simp at h
          | none =>
            rw [h0] at h
            exact Option.map_eq_none'.mp h
        · exact Option.map_eq_none'.mp h
      exact ih hrec b' s hx' hat

/-- Leftmost-ness of `emailSearch`. -/
theorem emailSearch_leftmost {text pre m post : List Char}
    (h : emailSearch text = some (pre, m, post)) :
    ∀ b s, text = b ++ s → b.length < pre.length → ¬ EmailAt s := by
  induction text generalizing pre with
  | nil => simp [emailSearch] at h
  | cons c rest ih =>
    intro b s hx hlt hat
    simp only [emailSearch] at h
    have hstep : (∃ pre', emailSearch rest = some (pre', m, post)
        ∧ pre = c :: pre') ∨ pre = [] := by
      split at h
      · cases h0 : emailStartAt (c :: rest) with
        | some p =>
          obtain ⟨m', post'⟩ := p
          rw [h0] at h
          have h3 := Option.some.inj h
          cases h3
          exact Or.inr rfl
        | none =>
          rw [h0] at h
          cases hrec : emailSearch rest with
          | none => rw [hrec] at h; simp at h
          | some rr =>
            obtain ⟨pre', m', post'⟩ := rr
            rw [hrec] at h
            have h3 := Option.some.inj h
            cases h3
            exact Or.inl ⟨pre', rfl, rfl⟩
      · cases hrec : emailSearch rest with
        | none => rw [hrec] at h; simp at h
        | some rr =>
          obtain ⟨pre', m', post'⟩ := rr
          rw [hrec] at h
          have h3 := Option.some.inj h
          cases h3
          exact Or.inl ⟨pre', rfl, rfl⟩
    rcases hstep with ⟨pre', hrec, hpre⟩ | hpre
    · subst hpre
      cases b with
      | nil =>
        simp only [List.nil_append] at hx
        subst hx
        obtain ⟨c0, r0, hs0, hloc0⟩ := emailAt_head_local hat
        have hc0 : c = c0 := by
          have := congrArg List.head? hs0
          simpa using this
        subst hc0
        rw [if_pos hloc0] at h
        cases h0 : emailStartAt (c :: rest) with
        | some p =>
          obtain ⟨m', post'⟩ := p
          rw [h0] at h
          have h3 := Option.some.inj h
          simp at h3
        | none => exact emailStartAt_of_EmailAt hat h0
      | cons cb b' =>
        have hx' : rest = b' ++ s := by
          simpa using congrArg List.tail hx
        have hlt' : b'.length < pre'.length := by
          simpa using hlt
        exact ih hrec b' s hx' hlt' hat
    · subst hpre
      simp at hlt


/-- Source: `_format_url` (lines 3875-3886): prefix `http://` onto bare
`www.` links. -/
def format_url (url : List Char) : List Char :=
  if startsWithCh (chars "www.") url then chars "http://" ++ url else url

/-- Source: `_detect_link` (lines 3838-3872): the pattern classes are tried
in the fixed list order markdown link, bare URL, email; each class
contributes its own leftmost match.  Returns
`(display_text, url, matched_text)`. -/
def detect_link (text : List Char) : Option (List Char × List Char × List Char) :=
  match mdSearch text with
  | some (_, g1, g2, _) => some (g1, g2, mdMatched g1 g2)
  | none =>
    match urlSearch text with
    | some (_, m, _) => some (m, format_url m, m)
    | none =>
      match emailSearch text with
      | some (_, m, _) => some (m, chars "mailto:" ++ m, m)
      | none => none

/-- Every detected match is a non-empty occurrence in the text. -/
theorem detect_link_occurs {text d u m : List Char}
    (h : detect_link text = some (d, u, m)) :
    m ≠ [] ∧ ∃ b a, text = b ++ m ++ a := by
  unfold detect_link at h
  cases hmd : mdSearch text with
  | some r =>
    obtain ⟨pre, g1, g2, post⟩ := r
    rw [hmd] at h
    have h3 := Option.some.inj h
    cases h3
    obtain ⟨he, _, _⟩ := mdSearch_eq hmd
    exact ⟨by simp [mdMatched], pre, post, he⟩
  | none =>
    rw [hmd] at h
    cases hurl : urlSearch text with
    | some r =>
      obtain ⟨pre, m', post⟩ := r
      rw [hurl] at h
      have h3 := Option.some.inj h
      cases h3
      obtain ⟨he, scheme, chunk, hmem, hm, hchne, _⟩ := urlSearch_eq hurl
      refine ⟨?_, pre, post, he⟩
      rw [hm]
      intro hnil
      rcases List.append_eq_nil.mp hnil with ⟨_, h2⟩
      exact hchne h2
    | none =>
      rw [hurl] at h
      cases hem : emailSearch text with
      | some r =>
        obtain ⟨pre, m', post⟩ := r
        rw [hem] at h
        have h3 := Option.some.inj h
        cases h3
        obtain ⟨he, lcl, x, arun, hm, _⟩ := emailSearch_eq hem
        refine ⟨?_, pre, post, he⟩
        rw [hm]
        intro hnil
        rcases List.append_eq_nil.mp hnil with ⟨_, h2⟩
        simp at h2
      | none => rw [hem] at h; simp at h

/-- The display text equals the matched text except for markdown links,
where it is group 1. -/
theorem detect_link_display {text d u m : List Char}
    (h : detect_link text = some (d, u, m)) :
    d = m ∨ ∃ g1 g2, m = mdMatched g1 g2 ∧ d = g1 := by
  unfold detect_link at h
  cases hmd : mdSearch text with
  | some r =>
    obtain ⟨pre, g1, g2, post⟩ := r
    rw [hmd] at h
    have h3 := Option.some.inj h
    cases h3
    exact Or.inr ⟨d, u, rfl, rfl⟩
  | none =>
    rw [hmd] at h
    cases hurl : urlSearch text with
    | some r =>
      obtain ⟨pre, m', post⟩ := r
      rw [hurl] at h
      have h3 := Option.some.inj h
      cases h3
      exact Or.inl rfl
    | none =>
      rw [hurl] at h
      cases hem : emailSearch text with
      | some r =>
        obtain ⟨pre, m', post⟩ := r
        rw [hem] at h
        have h3 := Option.some.inj h
        cases h3
        exact Or.inl rfl
      | none => rw [hem] at h; simp at h


/-- A fragment of the first pass of `_process_text_for_hyperlinks`
(lines 3906-3939): a plain text run or a hyperlink. -/
inductive Frag where
  | text (s : List Char)
  | link (display url : List Char)
deriving DecidableEq

/-- A fragment together with the source text it consumed (`matched_text` for
links): the instrumented counterpart of `Frag` used to state span properties. -/
inductive Seg where
  | plain (s : List Char)
  | linked (matched display url : List Char)
deriving DecidableEq

def fragText : Frag → List Char
  | Frag.text s => s
  | Frag.link d _ => d

def segRender : Seg → Frag
  | Seg.plain s => Frag.text s
  | Seg.linked _ d u => Frag.link d u

def segSource : Seg → List Char
  | Seg.plain s => s
  | Seg.linked m _ _ => m

/-- Fuelled worker for the first-pass loop of `_process_text_for_hyperlinks`
(lines 3906-3939): detect the next link, emit the text before it
(`remaining_text[:link_position]`, via the first occurrence of the matched
text), the link, a single following space as its own run, and continue;
`rem.length` fuel always suffices since every match is non-empty. -/
def buildFragmentsF : Nat → List Char → List Frag
  | 0, _ => []
  | fuel + 1, rem =>
    if rem = [] then []
    else
      match detect_link rem with
      | none => [Frag.text rem]
      | some (d, u, m) =>
        match splitFirst m rem with
        | none => [Frag.text rem]
        | some (pre, after) =>
          (if pre = [] then [] else [Frag.text pre])
            ++ Frag.link d u
            :: (match after with
                | [] => []
                | c :: after2 =>
                  if c = ' ' then Frag.text [' '] :: buildFragmentsF fuel after2
                  else buildFragmentsF fuel (c :: after2))

/-- The instrumented twin of `buildFragmentsF`, recording each link's
matched source text. -/
def buildSegmentsF : Nat → List Char → List Seg
  | 0, _ => []
  | fuel + 1, rem =>
    if rem = [] then []
    else
      match detect_link rem with
      | none => [Seg.plain rem]
      | some (d, u, m) =>
        match splitFirst m rem with
        | none => [Seg.plain rem]
        | some (pre, after) =>
          (if pre = [] then [] else [Seg.plain pre])
            ++ Seg.linked m d u
            :: (match after with
                | [] => []
                | c :: after2 =>
                  if c = ' ' then Seg.plain [' '] :: buildSegmentsF fuel after2
                  else buildSegmentsF fuel (c :: after2))

def buildFragments (text : List Char) : List Frag :=
  buildFragmentsF text.length text

def buildSegments (text : List Char) : List Seg :=
  buildSegmentsF text.length text

/-- Source: `_process_text_for_hyperlinks` (lines 3889-3953) with
`ensure_sentence_ending=False` (the configuration the hyperlink claims are
about): the early return for empty or whitespace-only text (line 3903), then
the fragment loop; the second pass emits the fragments in order. -/
def process_text_for_hyperlinks (text : List Char) : List Frag :=
  if text = [] ∨ pyStrip text = [] then [] else buildFragments text

theorem buildSegmentsF_spec :
    ∀ fuel rem, rem.length ≤ fuel →
      (buildSegmentsF fuel rem).map segRender = buildFragmentsF fuel rem
      ∧ ((buildSegmentsF fuel rem).map segSource).flatten = rem
      ∧ (∀ s, Seg.plain s ∈ buildSegmentsF fuel rem → s ≠ [])
      ∧ (∀ m d u, Seg.linked m d u ∈ buildSegmentsF fuel rem →
          d = m ∨ ∃ g1 g2, m = mdMatched g1 g2 ∧ d = g1) := by
  intro fuel
  induction fuel using Nat.strong_induction_on with
  | _ fuel ih =>
    intro rem hlen
    cases fuel with
    | zero =>
      have hrem : rem = [] := List.length_eq_zero.mp (Nat.le_zero.mp hlen)
      subst hrem
      exact ⟨rfl, rfl, by simp [buildSegmentsF], by simp [buildSegmentsF]⟩
    | succ f =>
      by_cases hrem : rem = []
      · subst hrem
        exact ⟨rfl, rfl, by simp [buildSegmentsF], by simp [buildSegmentsF]⟩
      · cases hd : detect_link rem with
        | none =>
          have hseg : buildSegmentsF (f+1) rem = [Seg.plain rem] := by
            simp [buildSegmentsF, hrem, hd]
          have hfrag : buildFragmentsF (f+1) rem = [Frag.text rem] := by
            simp [buildFragmentsF, hrem, hd]
          rw [hseg, hfrag]
          refine ⟨rfl, by simp [segSource], ?_, by simp⟩
          intro s hs
          rcases List.mem_singleton.mp hs with h
          have : s = rem := Seg.plain.inj h
          rw [this]
          exact hrem
        | some p =>
          obtain ⟨d, u, m⟩ := p
          have hm : m ≠ [] := (detect_link_occurs hd).1
          cases hsf : splitFirst m rem with
          | none =>
            have hseg : buildSegmentsF (f+1) rem = [Seg.plain rem] := by
              simp [buildSegmentsF, hrem, hd, hsf]
            have hfrag : buildFragmentsF (f+1) rem = [Frag.text rem] := by
              simp [buildFragmentsF, hrem, hd, hsf]
            rw [hseg, hfrag]
            refine ⟨rfl, by simp [segSource], ?_, by simp⟩
            intro s hs
            rcases List.mem_singleton.mp hs with h
            have : s = rem := Seg.plain.inj h
            rw [this]
            exact hrem
          | some pa =>
            obtain ⟨pre, after⟩ := pa
            have hocc := splitFirst_eq hsf
            have hla : after.length ≤ f := by
              have := congrArg List.length hocc
              simp only [List.length_append] at this
              have hm1 : 1 ≤ m.length := by
                cases m with
                | nil => exact absurd rfl hm
                | cons _ _ => simp
              omega
            cases after with
            | nil =>
              have hseg : buildSegmentsF (f+1) rem
                  = (if pre = [] then [] else [Seg.plain pre])
                    ++ [Seg.linked m d u] := by
                simp only [buildSegmentsF, if_neg hrem, hd, hsf]
              have hfrag : buildFragmentsF (f+1) rem
                  = (if pre = [] then [] else [Frag.text pre])
                    ++ [Frag.link d u] := by
                simp only [buildFragmentsF, if_neg hrem, hd, hsf]
              rw [hseg, hfrag]
              have hdisp := detect_link_display hd
              refine ⟨?_, ?_, ?_, ?_⟩
              · by_cases hpre : pre = [] <;> simp [hpre, segRender]
              · by_cases hpre : pre = []
                · simp only [hpre, if_pos]
                  simp only [segSource, List.nil_append, List.map_cons, List.map_nil,
                    List.flatten_cons, List.flatten_nil, List.append_nil]
                  simpa [hpre] using hocc.symm
                · simp only [if_neg hpre]
                  simp only [segSource, List.map_append, List.map_cons, List.map_nil,
                    List.flatten_append, List.flatten_cons, List.flatten_nil, List.append_nil]
                  simpa using hocc.symm
              · intro s hs
                by_cases hpre : pre = []
                · simp [hpre] at hs
                · simp [hpre] at hs
                  rw [hs]
                  exact hpre
              · intro m' d' u' hmem
                by_cases hpre : pre = []
                · simp [hpre] at hmem
                  obtain ⟨h1, h2, h3⟩ := hmem
                  rw [h1, h2]
                  exact hdisp
                · simp [hpre] at hmem
                  obtain ⟨h1, h2, h3⟩ := hmem
                  rw [h1, h2]
                  exact hdisp
            | cons c after2 =>
              have hdisp := detect_link_display hd
              by_cases hc : c = ' '
              · subst hc
                have hla2 : after2.length ≤ f := by
                  simp only [List.length_cons] at hla
                  omega
                obtain ⟨ihr, ihs, ihp, ihl⟩ := ih f (Nat.lt_succ_self f) after2 hla2
                have hseg : buildSegmentsF (f+1) rem
                    = (if pre = [] then [] else [Seg.plain pre])
                      ++ Seg.linked m d u :: Seg.plain [' ']
                      :: buildSegmentsF f after2 := by
                  simp only [buildSegmentsF, if_neg hrem, hd, hsf]
                  simp
                have hfrag : buildFragmentsF (f+1) rem
                    = (if pre = [] then [] else [Frag.text pre])
                      ++ Frag.link d u :: Frag.text [' ']
                      :: buildFragmentsF f after2 := by
                  simp only [buildFragmentsF, if_neg hrem, hd, hsf]
                  simp
                rw [hseg, hfrag]
                refine ⟨?_, ?_, ?_, ?_⟩
                · by_cases hpre : pre = [] <;>
                    simp [hpre, segRender, ihr]
                · by_cases hpre : pre = []
                  · simp [hpre, segSource, ihs]
                    simpa [hpre] using hocc.symm
                  · simp [hpre, segSource, ihs]
                    simpa using hocc.symm
                · intro s hs
                  by_cases hpre : pre = []
                  · simp [hpre] at hs
                    rcases hs with h | h
                    · rw [h]; simp
                    · exact ihp s h
                  · simp [hpre] at hs
                    rcases hs with h | h | h
                    · rw [h]; exact hpre
                    · rw [h]; simp
                    · exact ihp s h
                · intro m' d' u' hmem
                  by_cases hpre : pre = []
                  · simp [hpre] at hmem
                    rcases hmem with ⟨h1, h2, h3⟩ | h
                    · rw [h1, h2]; exact hdisp
                    · exact ihl m' d' u' h
                  · simp [hpre] at hmem
                    rcases hmem with ⟨h1, h2, h3⟩ | h
                    · rw [h1, h2]; exact hdisp
                    · exact ihl m' d' u' h
              · obtain ⟨ihr, ihs, ihp, ihl⟩ := ih f (Nat.lt_succ_self f) (c :: after2) hla
                have hseg : buildSegmentsF (f+1) rem
                    = (if pre = [] then [] else [Seg.plain pre])
                      ++ Seg.linked m d u :: buildSegmentsF f (c :: after2) := by
                  simp only [buildSegmentsF, if_neg hrem, hd, hsf]
                  simp [hc]
                have hfrag : buildFragmentsF (f+1) rem
                    = (if pre = [] then [] else [Frag.text pre])
                      ++ Frag.link d u :: buildFragmentsF f (c :: after2) := by
                  simp only [buildFragmentsF, if_neg hrem, hd, hsf]
                  simp [hc]
                rw [hseg, hfrag]
                refine ⟨?_, ?_, ?_, ?_⟩
                · by_cases hpre : pre = [] <;>
                    simp [hpre, segRender, ihr]
                · by_cases hpre : pre = []
                  · simp [hpre, segSource, ihs]
                    simpa [hpre] using hocc.symm
                  · simp [hpre, segSource, ihs]
                    simpa using hocc.symm
                · intro s hs
                  by_cases hpre : pre = []
                  · simp [hpre] at hs
                    exact ihp s hs
                  · simp [hpre] at hs
                    rcases hs with h | h
                    · rw [h]; exact hpre
                    · exact ihp s h
                · intro m' d' u' hmem
                  by_cases hpre : pre = []
                  · simp [hpre] at hmem
                    rcases hmem with ⟨h1, h2, h3⟩ | h
                    · rw [h1, h2]; exact hdisp
                    · exact ihl m' d' u' h
                  · simp [hpre] at hmem
                    rcases hmem with ⟨h1, h2, h3⟩ | h
                    · rw [h1, h2]; exact hdisp
                    · exact ihl m' d' u' h


/-- C2 (corrected): for text that is neither empty nor whitespace-only,
`_process_text_for_hyperlinks` emits the renderings of a segment list whose
matched source spans are non-overlapping, in positional order, and
concatenate to exactly the original text (no characters lost or duplicated);
every plain run is non-empty; but the TEXT carried by a hyperlink run is the
matched span only for bare URLs and emails — a markdown link `[d](u)` is
rendered with display text `d`, so concatenating the emitted run texts drops
the bracket syntax; and empty or whitespace-only text yields no runs at all. -/
theorem C2_hyperlink_fragments (text : List Char)
    (h : ¬(text = [] ∨ pyStrip text = [])) :
    process_text_for_hyperlinks text = (buildSegments text).map segRender
    ∧ ((buildSegments text).map segSource).flatten = text
    ∧ (∀ s, Seg.plain s ∈ buildSegments text → s ≠ [])
    ∧ (∀ m d u, Seg.linked m d u ∈ buildSegments text →
        d = m ∨ ∃ g1 g2, m = mdMatched g1 g2 ∧ d = g1) := by
  obtain ⟨hr, hs, hp, hl⟩ :=
    buildSegmentsF_spec text.length text (Nat.le_refl _)
  refine ⟨?_, hs, hp, hl⟩
  unfold process_text_for_hyperlinks buildFragments buildSegments
  rw [if_neg h]
  exact hr.symm

/-- C2 counterexample: concatenating the emitted run texts does not always
reproduce the input — a markdown link loses its bracket syntax, and
whitespace-only input produces no runs at all. -/
theorem C2_counterexample :
    ((process_text_for_hyperlinks (chars "[a](b)")).map fragText).flatten
        ≠ chars "[a](b)"
    ∧ process_text_for_hyperlinks (chars " ") = []
    ∧ chars " " ≠ [] := by
  refine ⟨by decide, by decide, by decide⟩

theorem C2_witness :
    ¬(chars "see http://x.co" = [] ∨ pyStrip (chars "see http://x.co") = [])
    ∧ (process_text_for_hyperlinks (chars "see http://x.co")
        = (buildSegments (chars "see http://x.co")).map segRender
      ∧ ((buildSegments (chars "see http://x.co")).map segSource).flatten
          = chars "see http://x.co"
      ∧ (∀ s, Seg.plain s ∈ buildSegments (chars "see http://x.co") → s ≠ [])
      ∧ (∀ m d u, Seg.linked m d u ∈ buildSegments (chars "see http://x.co") →
          d = m ∨ ∃ g1 g2, m = mdMatched g1 g2 ∧ d = g1)) :=
  ⟨by decide, C2_hyperlink_fragments (chars "see http://x.co") (by decide)⟩

/-- C3 (corrected): `_detect_link` tries the three pattern classes in the
fixed priority order markdown link, bare URL, email — a markdown link wins
even when a URL or email match starts strictly earlier in the string; within
each class the leftmost match is used, the matched span really occurs in the
text with the documented shape, a bare `www.` URL gets an inferred `http://`
scheme, an email gets an inferred `mailto:` scheme, and when no class matches
the result is `none`. -/
theorem C3_detect_link_priority (text : List Char) :
    (∀ pre g1 g2 post, mdSearch text = some (pre, g1, g2, post) →
      detect_link text = some (g1, g2, mdMatched g1 g2)
      ∧ text = pre ++ mdMatched g1 g2 ++ post
      ∧ (∀ b s, text = b ++ s → b.length < pre.length → ¬ MdAt s))
    ∧ (mdSearch text = none →
       ∀ pre m post, urlSearch text = some (pre, m, post) →
      detect_link text = some (m, format_url m, m)
      ∧ text = pre ++ m ++ post ∧ UrlShape m
      ∧ (startsWithCh (chars "www.") m = true →
          format_url m = chars "http://" ++ m)
      ∧ (∀ b s, text = b ++ s → b.length < pre.length → ¬ UrlAt s))
    ∧ (mdSearch text = none → urlSearch text = none →
       ∀ pre m post, emailSearch text = some (pre, m, post) →
      detect_link text = some (m, chars "mailto:" ++ m, m)
      ∧ text = pre ++ m ++ post ∧ EmailShape m
      ∧ (∀ b s, text = b ++ s → b.length < pre.length → ¬ EmailAt s))
    ∧ (mdSearch text = none → urlSearch text = none → emailSearch text = none →
      detect_link text = none) := by
  refine ⟨?_, ?_, ?_, ?_⟩
  · intro pre g1 g2 post h
    refine ⟨?_, (mdSearch_eq h).1, mdSearch_leftmost h⟩
    simp only [detect_link, h]
  · intro hmd pre m post h
    refine ⟨?_, (urlSearch_eq h).1, (urlSearch_eq h).2, ?_, urlSearch_leftmost h⟩
    · simp only [detect_link, hmd, h]
    · intro hw
      simp only [format_url, if_pos hw]
  · intro hmd hurl pre m post h
    refine ⟨?_, (emailSearch_eq h).1, (emailSearch_eq h).2, emailSearch_leftmost h⟩
    simp only [detect_link, hmd, hurl, h]
  · intro hmd hurl hem
    simp only [detect_link, hmd, hurl, hem]

/-- C3 counterexample: in `"http://a.b [c](d)"` the bare-URL match starts at
position 0 and the markdown-link match only at position 11, yet
`_detect_link` returns the markdown link — class priority, not nearest
start. -/
theorem C3_counterexample :
    detect_link (chars "http://a.b [c](d)")
      = some (chars "c", chars "d", chars "[c](d)")
    ∧ urlSearch (chars "http://a.b [c](d)")
      = some ([], chars "http://a.b", chars " [c](d)")
    ∧ mdSearch (chars "http://a.b [c](d)")
      = some (chars "http://a.b ", chars "c", chars "d", []) := by
  refine ⟨by decide, by decide, by decide⟩

theorem C3_witness :
    mdSearch (chars "go www.x.co") = none
    ∧ urlSearch (chars "go www.x.co")
        = some (chars "go ", chars "www.x.co", [])
    ∧ detect_link (chars "go www.x.co")
        = some (chars "www.x.co", chars "http://www.x.co", chars "www.x.co") := by
  refine ⟨by decide, by decide, ?_⟩
  have h := ((C3_detect_link_priority (chars "go www.x.co")).2.1 (by decide)
      (chars "go ") (chars "www.x.co") [] (by decide)).1
  rw [h]
  decide

end ResumeMd
